import Mathlib

/-!
Verification of the pjscan traversal-and-cache subsystem.

This file gives a shallow embedding of the relation cache
(`pjscan/cache/cache_graph.py`, class `BasicCacheGraph`) and of the
rule-driven graph traversal engine (`pjscan/graph_traversal.py`,
classes `BaseGraphTraversal` and
`GlobalProgramDependencyGraphBackwardTraversal`), and proves or refutes
the specified properties of those components.

Python dictionaries are embedded as association lists (first binding
wins, insertion order preserved, matching the iteration order of python
dicts and of networkx adjacency).  A `networkx.DiGraph` used by the
cache is embedded as `RelGraph`: a `visiable` bit table (the per-node
2-bit fetch state used by the source) plus an ordered edge list with an
optional `taint_var` attribute (only data-flow edges carry it).
`py2neo.Node` is projected onto the fields the subsystem reads:
the stable `NODE_INDEX`, and the transient `taint_var` annotation.
-/

namespace PJScan

/-- Projection of a `py2neo.Node` as seen by the cache: its stable
`NODE_INDEX` and the transient `taint_var` annotation written by
`get_pdg_outflow`. -/
structure GNode where
  index : Nat
  taint_var : Option String
  deriving DecidableEq

/-- Projection of a `py2neo.Relationship`: its two endpoint nodes and the
`var` property read by the data-flow cache writers. -/
structure GRel where
  start_node : GNode
  end_node : GNode
  var : Option String
  deriving DecidableEq

/-- Lookup in an association list, first binding wins (python `dict.get`). -/
def alookup {κ α : Type} [BEq κ] : List (κ × α) → κ → Option α
  | [], _ => none
  | p :: t, k => if p.1 == k then some p.2 else alookup t k

/-- Update or insert a binding (python `dict.__setitem__`): an existing key
is overwritten in place, a new key is appended, preserving insertion order. -/
def aset {κ α : Type} [BEq κ] : List (κ × α) → κ → α → List (κ × α)
  | [], k, v => [(k, v)]
  | p :: t, k, v => if p.1 == k then (k, v) :: t else p :: aset t k v

/-- One `networkx.DiGraph` as the cache uses it: a per-node `visiable`
bit table (`0b10` = outbound fetched, `0b01` = inbound fetched) and an
ordered list of directed edges `(src, dst, taint_var)`. Edges of the
structural, control-flow and call graphs carry no attribute (`none`). -/
structure RelGraph where
  visiable : List (Nat × Nat)
  edges : List (Nat × Nat × Option String)
  deriving DecidableEq

/-- Empty `networkx.DiGraph`. -/
def RelGraph.empty : RelGraph := ⟨[], []⟩

/-- Membership test of a node id (`DiGraph.has_node`). -/
def RelGraph.hasNode (g : RelGraph) (i : Nat) : Bool :=
  (alookup g.visiable i).isSome

/-- Register a node with fetch state `0b00` if absent (`DiGraph.add_node`
with `visiable=0b00` as the source always passes). -/
def RelGraph.addNode (g : RelGraph) (i : Nat) : RelGraph :=
  if g.hasNode i then g else ⟨g.visiable ++ [(i, 0)], g.edges⟩

/-- Fetch-state bits of a node (`g.nodes[i]['visiable']`, defaulting to
`0b00` for a node the cache has not seen). -/
def RelGraph.visOf (g : RelGraph) (i : Nat) : Nat :=
  (alookup g.visiable i).getD 0

/-- Overwrite the fetch-state bits of a node. -/
def RelGraph.setVis (g : RelGraph) (i : Nat) (v : Nat) : RelGraph :=
  ⟨aset g.visiable i v, g.edges⟩

/-- Edge membership (`DiGraph.has_edge`), attribute-blind. -/
def RelGraph.hasEdge (g : RelGraph) (s t : Nat) : Bool :=
  g.edges.any (fun e => e.1 == s && e.2.1 == t)

/-- Append a directed edge with its attribute (`DiGraph.add_edge`; the
source always guards with `has_edge`, so attributes are never overwritten). -/
def RelGraph.addEdge (g : RelGraph) (s t : Nat) (tv : Option String) : RelGraph :=
  ⟨g.visiable, g.edges ++ [(s, t, tv)]⟩

/-- Successor ids in insertion order (`DiGraph.successors`). -/
def RelGraph.successors (g : RelGraph) (s : Nat) : List Nat :=
  g.edges.filterMap (fun e => if e.1 == s then some e.2.1 else none)

/-- Predecessor ids in insertion order (`DiGraph.predecessors`). -/
def RelGraph.predecessors (g : RelGraph) (t : Nat) : List Nat :=
  g.edges.filterMap (fun e => if e.2.1 == t then some e.1 else none)

/-- Attribute of the (unique) edge `s → t`
(`g.edges[s, t]['taint_var']`). -/
def RelGraph.edgeVar (g : RelGraph) (s t : Nat) : Option String :=
  ((g.edges.find? (fun e => e.1 == s && e.2.1 == t)).map (fun e => e.2.2)).getD none

/-- The four relation kinds cached by `BasicCacheGraph`. -/
inductive RelKind
  | ast
  | cfg
  | pdg
  | cg
  deriving DecidableEq

/-- Direction of a cached edge set. -/
inductive Dir
  | inflow
  | outflow
  deriving DecidableEq

/-- Bit used for a direction in the `visiable` field: `0b10` for
outbound, `0b01` for inbound, exactly as in the source. -/
def dirBit : Dir → Nat
  | .outflow => 2
  | .inflow => 1

/-- State of `BasicCacheGraph`: the node pool, the per-node source tags,
and the four relation graphs. -/
structure BasicCacheGraph where
  node_cache_pool : List (Nat × GNode)
  node_source : List (Nat × String)
  ast_cache_graph : RelGraph
  cfg_cache_graph : RelGraph
  pdg_cache_graph : RelGraph
  cg_cache_graph : RelGraph
  deriving DecidableEq

/-- Freshly constructed `BasicCacheGraph()`. -/
def BasicCacheGraph.empty : BasicCacheGraph :=
  ⟨[], [], RelGraph.empty, RelGraph.empty, RelGraph.empty, RelGraph.empty⟩

/-- Select a relation graph by kind. -/
def BasicCacheGraph.rel (g : BasicCacheGraph) : RelKind → RelGraph
  | .ast => g.ast_cache_graph
  | .cfg => g.cfg_cache_graph
  | .pdg => g.pdg_cache_graph
  | .cg => g.cg_cache_graph

/-- Replace a relation graph by kind. -/
def BasicCacheGraph.setRel (g : BasicCacheGraph) (R : RelKind) (r : RelGraph) : BasicCacheGraph :=
  match R with
  | .ast => { g with ast_cache_graph := r }
  | .cfg => { g with cfg_cache_graph := r }
  | .pdg => { g with pdg_cache_graph := r }
  | .cg => { g with cg_cache_graph := r }

/-- Source method `BasicCacheGraph.add_node(node, source)`: register the
node with fetch state `0b00` in each of the four relation graphs, then
insert it into the node pool only if its index is not pooled yet
(first writer wins). -/
def BasicCacheGraph.add_node (g : BasicCacheGraph) (node : GNode) (source : String) : BasicCacheGraph :=
  let g := { g with ast_cache_graph := g.ast_cache_graph.addNode node.index }
  let g := { g with cfg_cache_graph := g.cfg_cache_graph.addNode node.index }
  let g := { g with pdg_cache_graph := g.pdg_cache_graph.addNode node.index }
  let g := { g with cg_cache_graph := g.cg_cache_graph.addNode node.index }
  if (alookup g.node_cache_pool node.index).isSome then g
  else { g with
         node_cache_pool := g.node_cache_pool ++ [(node.index, node)],
         node_source := g.node_source ++ [(node.index, source)] }

/-- Source method `BasicCacheGraph.get_node(_node_index)` restricted to the
hit case (the miss sentinel `False` is `none` here). -/
def BasicCacheGraph.get_node (g : BasicCacheGraph) (i : Nat) : Option GNode :=
  alookup g.node_cache_pool i

/-- Other endpoint of a relationship as seen from the cached node:
`relationship.end_node` for an outbound write, `relationship.start_node`
for an inbound one. -/
def GRel.other (r : GRel) : Dir → GNode
  | .outflow => r.end_node
  | .inflow => r.start_node

/-- Ordered endpoint pair of the edge a relationship contributes for the
node whose direction is being cached. -/
def edgeEnds (center : Nat) (r : GRel) : Dir → Nat × Nat
  | .outflow => (center, r.end_node.index)
  | .inflow => (r.start_node.index, center)

/-- Attribute stored on a written edge: data-flow writers store
`relationship['var']` as `taint_var`; the other writers store no attribute. -/
def edgeAttr (R : RelKind) (r : GRel) : Option String :=
  if R = RelKind.pdg then r.var else none

/-- Loop body shared by the eight `add_<relation>_<direction>` writers:
for each relationship, register its far endpoint and append the edge
unless an edge between that ordered pair already exists. -/
def addFlowLoop (R : RelKind) (d : Dir) (center : Nat) : List GRel → BasicCacheGraph → BasicCacheGraph
  | [], g => g
  | r :: rs, g =>
    let g := g.add_node (r.other d) "traversal"
    let se := edgeEnds center r d
    let g := if (g.rel R).hasEdge se.1 se.2 then g
             else g.setRel R ((g.rel R).addEdge se.1 se.2 (edgeAttr R r))
    addFlowLoop R d center rs g

/-- Source methods `add_<relation>_<direction>(node, relationships)`:
register the node, and unless the direction is already marked fetched,
set its bit and insert the relationships' endpoints and edges. -/
def BasicCacheGraph.addFlow (g0 : BasicCacheGraph) (R : RelKind) (d : Dir) (node : GNode)
    (rels : List GRel) : BasicCacheGraph :=
  let g := g0.add_node node "traversal"
  if (g.rel R).visOf node.index &&& dirBit d != 0 then g
  else
    let g := g.setRel R ((g.rel R).setVis node.index ((g.rel R).visOf node.index ||| dirBit d))
    addFlowLoop R d node.index rels g

/-- Source method `add_ast_outflow`. -/
def BasicCacheGraph.add_ast_outflow (g : BasicCacheGraph) (node : GNode) (rels : List GRel) : BasicCacheGraph :=
  g.addFlow RelKind.ast Dir.outflow node rels

/-- Source method `add_ast_inflow`. -/
def BasicCacheGraph.add_ast_inflow (g : BasicCacheGraph) (node : GNode) (rels : List GRel) : BasicCacheGraph :=
  g.addFlow RelKind.ast Dir.inflow node rels

/-- Source method `add_cfg_outflow`. -/
def BasicCacheGraph.add_cfg_outflow (g : BasicCacheGraph) (node : GNode) (rels : List GRel) : BasicCacheGraph :=
  g.addFlow RelKind.cfg Dir.outflow node rels

/-- Source method `add_cfg_inflow`. -/
def BasicCacheGraph.add_cfg_inflow (g : BasicCacheGraph) (node : GNode) (rels : List GRel) : BasicCacheGraph :=
  g.addFlow RelKind.cfg Dir.inflow node rels

/-- Source method `add_pdg_outflow` (stores `relationship['var']` on the
edge as `taint_var`). -/
def BasicCacheGraph.add_pdg_outflow (g : BasicCacheGraph) (node : GNode) (rels : List GRel) : BasicCacheGraph :=
  g.addFlow RelKind.pdg Dir.outflow node rels

/-- Source method `add_pdg_inflow`. -/
def BasicCacheGraph.add_pdg_inflow (g : BasicCacheGraph) (node : GNode) (rels : List GRel) : BasicCacheGraph :=
  g.addFlow RelKind.pdg Dir.inflow node rels

/-- Source method `add_cg_outflow`. -/
def BasicCacheGraph.add_cg_outflow (g : BasicCacheGraph) (node : GNode) (rels : List GRel) : BasicCacheGraph :=
  g.addFlow RelKind.cg Dir.outflow node rels

/-- Source method `add_cg_inflow`. -/
def BasicCacheGraph.add_cg_inflow (g : BasicCacheGraph) (node : GNode) (rels : List GRel) : BasicCacheGraph :=
  g.addFlow RelKind.cg Dir.inflow node rels

/-- Neighbor ids of a node in a given relation and direction. -/
def BasicCacheGraph.neighborIds (g : BasicCacheGraph) (R : RelKind) (d : Dir) (i : Nat) : List Nat :=
  match d with
  | .inflow => (g.rel R).predecessors i
  | .outflow => (g.rel R).successors i

/-- Fetch-completeness flag of `(node, relation, direction)`: whether the
direction's bit is set in the node's `visiable` field. -/
def BasicCacheGraph.fetched (g : BasicCacheGraph) (R : RelKind) (d : Dir) (i : Nat) : Bool :=
  (g.rel R).visOf i &&& dirBit d != 0

/-- Shape shared by seven of the eight `get_<relation>_<direction>`
accessors (all but `get_pdg_outflow`): register the node, and if the
direction's bit is set return the pool entries of the neighbor ids
(python `dict.get`, hence `Option`), else return the `None` sentinel. -/
def BasicCacheGraph.getFlow (g0 : BasicCacheGraph) (R : RelKind) (d : Dir) (node : GNode) :
    BasicCacheGraph × Option (List (Option GNode)) :=
  let g := g0.add_node node "traversal"
  if (g.rel R).visOf node.index &&& dirBit d != 0 then
    (g, some ((g.neighborIds R d node.index).map (fun i => alookup g.node_cache_pool i)))
  else (g, none)

/-- Loop of `get_pdg_outflow`: for each successor id, read the edge's
`taint_var`, overwrite the pooled node's transient `taint_var` with it
(the source mutates the pooled object in place), and emit that node.
A successor id missing from the pool would crash the source
(`False['taint_var']`); edge endpoints are always pooled in states the
cache itself builds, and the unreachable branch is skipped here. -/
def pdgOutLoop (pg : RelGraph) (src : Nat) : List Nat → List (Nat × GNode) → List (Nat × GNode) × List GNode
  | [], pool => (pool, [])
  | i :: ids, pool =>
    let tv := pg.edgeVar src i
    match alookup pool i with
    | some p =>
      let m := { p with taint_var := tv }
      let pr := pdgOutLoop pg src ids (aset pool i m)
      (pr.1, m :: pr.2)
    | none => pdgOutLoop pg src ids pool

/-- Source method `get_pdg_outflow`: like the generic accessor, but each
returned node carries the edge's `taint_var`, which is also written back
onto the pooled copy. -/
def BasicCacheGraph.get_pdg_outflow (g0 : BasicCacheGraph) (node : GNode) :
    BasicCacheGraph × Option (List GNode) :=
  let g := g0.add_node node "traversal"
  if g.pdg_cache_graph.visOf node.index &&& 2 != 0 then
    let pr := pdgOutLoop g.pdg_cache_graph node.index
      (g.pdg_cache_graph.successors node.index) g.node_cache_pool
    ({ g with node_cache_pool := pr.1 }, some pr.2)
  else (g, none)

/-- Source method `get_ast_inflow`. -/
def BasicCacheGraph.get_ast_inflow (g : BasicCacheGraph) (node : GNode) :
    BasicCacheGraph × Option (List (Option GNode)) :=
  g.getFlow RelKind.ast Dir.inflow node

/-- Source method `get_ast_outflow`. -/
def BasicCacheGraph.get_ast_outflow (g : BasicCacheGraph) (node : GNode) :
    BasicCacheGraph × Option (List (Option GNode)) :=
  g.getFlow RelKind.ast Dir.outflow node

/-- Source method `get_cfg_inflow`. -/
def BasicCacheGraph.get_cfg_inflow (g : BasicCacheGraph) (node : GNode) :
    BasicCacheGraph × Option (List (Option GNode)) :=
  g.getFlow RelKind.cfg Dir.inflow node

/-- Source method `get_cfg_outflow`. -/
def BasicCacheGraph.get_cfg_outflow (g : BasicCacheGraph) (node : GNode) :
    BasicCacheGraph × Option (List (Option GNode)) :=
  g.getFlow RelKind.cfg Dir.outflow node

/-- Source method `get_pdg_inflow` (follows the generic shape: no
`taint_var` is attached to the returned predecessors). -/
def BasicCacheGraph.get_pdg_inflow (g : BasicCacheGraph) (node : GNode) :
    BasicCacheGraph × Option (List (Option GNode)) :=
  g.getFlow RelKind.pdg Dir.inflow node

/-- Source method `get_cg_inflow`. -/
def BasicCacheGraph.get_cg_inflow (g : BasicCacheGraph) (node : GNode) :
    BasicCacheGraph × Option (List (Option GNode)) :=
  g.getFlow RelKind.cg Dir.inflow node

/-- Source method `get_cg_outflow`. -/
def BasicCacheGraph.get_cg_outflow (g : BasicCacheGraph) (node : GNode) :
    BasicCacheGraph × Option (List (Option GNode)) :=
  g.getFlow RelKind.cg Dir.outflow node

/-- Uniform view of the eight accessors, wrapping `get_pdg_outflow`'s
always-present entries in `some`. -/
def BasicCacheGraph.getFlowD (g : BasicCacheGraph) (R : RelKind) (d : Dir) (node : GNode) :
    BasicCacheGraph × Option (List (Option GNode)) :=
  match R, d with
  | .pdg, .outflow =>
    let pr := g.get_pdg_outflow node
    (pr.1, pr.2.map (fun l => l.map some))
  | .ast, dd => g.getFlow RelKind.ast dd node
  | .cfg, dd => g.getFlow RelKind.cfg dd node
  | .cg, dd => g.getFlow RelKind.cg dd node
  | .pdg, .inflow => g.getFlow RelKind.pdg Dir.inflow node

/-- A cache session operation: any public mutator or accessor of
`BasicCacheGraph` that touches the relation graphs or the pool. -/
inductive CacheOp
  | opAddNode (n : GNode) (source : String)
  | opAddFlow (R : RelKind) (d : Dir) (n : GNode) (rels : List GRel)
  | opGetFlow (R : RelKind) (d : Dir) (n : GNode)

/-- Apply one session operation to the cache state. -/
def CacheOp.apply (g : BasicCacheGraph) : CacheOp → BasicCacheGraph
  | .opAddNode n source => g.add_node n source
  | .opAddFlow R d n rels => g.addFlow R d n rels
  | .opGetFlow R d n => (g.getFlowD R d n).1

/-- Apply a sequence of session operations in order. -/
def applyOps (ops : List CacheOp) (g : BasicCacheGraph) : BasicCacheGraph :=
  ops.foldl CacheOp.apply g

/-!
Traversal engine, from `pjscan/graph_traversal.py`.

`BaseGraphTraversal` is embedded as explicit state passing: the mutable
attributes of an instance become the fields of `Trav`, the pluggable
`traversal` step with any instance storage it keeps (such as the
`func_depth` table of the interprocedural variants) becomes a state
function `σ → TNode → σ × List TNode`, and the `while` loop of `run`
becomes fuel-indexed recursion (the loop need not terminate for an
arbitrary step function).  Sanitizer and terminal rules are boolean
predicates, as in the source.  The recorder is a state/function pair;
the default `GraphTraversalRecorder` stores nodes and edges and always
answers `True`.
-/

/-- Node as the traversal engine reads it: the session identity
(`node.identity`, the key of revisit suppression), the stable
`NODE_INDEX`, `NODE_FUNCID`, `NODE_TYPE`, and the mutable `origin`
property `run` writes (`none` models a node on which it was never set;
`py2neo` answers `None` for a missing property). -/
structure TNode where
  identity : Nat
  index : Nat
  funcid : Nat
  ntype : String
  origin : Option Nat
  deriving DecidableEq

/-- Storage graph of a recorder (node indexes and directed edges, the
metadata attached to them being irrelevant to the claims). -/
structure RecState where
  rnodes : List Nat
  redges : List (Nat × Nat)
  deriving DecidableEq

/-- Empty recorder storage. -/
def RecState.empty : RecState := ⟨[], []⟩

/-- Configuration of a traversal: the step function with its private
state type, the sanitizer and terminal rule lists, and the recorder
callbacks. -/
structure TravCfg (σ : Type) where
  step : σ → TNode → σ × List TNode
  sanitizer : List (TNode → Bool)
  terminal : List (TNode → Bool)
  record : RecState → TNode → TNode → RecState × Bool
  record_origin : RecState → TNode → RecState

/-- Module-level `DEFAULT_SANTITZER`: a rule that never sanitizes. -/
def DEFAULT_SANTITZER : TNode → Bool := fun _ => false

/-- Default recorder `GraphTraversalRecorder.record`: store the edge and
its endpoint and always answer `True`. -/
def graphTraversalRecorderRecord (r : RecState) (node next_node : TNode) : RecState × Bool :=
  (⟨(if r.rnodes.contains next_node.index then r.rnodes else r.rnodes ++ [next_node.index]),
    (if r.redges.contains (node.index, next_node.index) then r.redges
     else r.redges ++ [(node.index, next_node.index)])⟩, true)

/-- Default recorder `GraphTraversalRecorder.record_origin`. -/
def graphTraversalRecorderRecordOrigin (r : RecState) (o : TNode) : RecState :=
  ⟨(if r.rnodes.contains o.index then r.rnodes else r.rnodes ++ [o.index]), r.redges⟩

/-- One entry of the `_origin` seed list: either a literal start node or
an origin resolver function; a resolver is represented by the node list
it returns for the session's analysis framework, which is fixed. -/
inductive OriginEntry
  | litNode (n : TNode)
  | resolver (ns : List TNode)
  deriving DecidableEq

/-- Mutable state of a `BaseGraphTraversal` instance: `_origin` (the
constructor argument), `origin` (the resolved seed list), the visit
counter pool keyed by origin id then node identity, `_result`, the step
function's private storage, and the recorder storage. -/
structure Trav (σ : Type) where
  _origin : List OriginEntry
  origin : List TNode
  visit_node_pool : List (Option Nat × List (Nat × Nat))
  result : List TNode
  stepState : σ
  recState : RecState
  deriving DecidableEq

/-- Source method `BaseGraphTraversal.get_result`. -/
def get_result {σ : Type} (s : Trav σ) : List TNode := s.result

/-- Payload of a seed entry when the first entry is a literal node
(`self.origin = self._origin`). -/
def originEntryNode : OriginEntry → Option TNode
  | OriginEntry.litNode n => some n
  | OriginEntry.resolver _ => none

/-- Nodes contributed by a seed entry in the resolver branch
(`self.origin.extend(origin_func(...))`). -/
def originEntryNodes : OriginEntry → List TNode
  | OriginEntry.litNode _ => []
  | OriginEntry.resolver ns => ns

/-- Source method `BaseGraphTraversal.init_traversal`: a no-op once
`origin` is non-empty; an `IndexError` when `_origin` is empty too;
otherwise `origin` is filled from `_origin`, literally when its first
entry is a node (a heterogeneous seed list, which would crash the
source, is not modelled) and by concatenating each resolver's answer
otherwise. -/
def init_traversal {σ : Type} (s : Trav σ) : Except String (Trav σ) :=
  if s.origin.length != 0 then Except.ok s
  else if s._origin.length = 0 then Except.error "self.origin should not be empty"
  else match s._origin.head? with
    | some (OriginEntry.litNode _) =>
        Except.ok { s with origin := s._origin.filterMap originEntryNode }
    | _ =>
        Except.ok { s with origin :=
          s.origin ++ s._origin.foldl (fun acc e => acc ++ originEntryNodes e) [] }

/-- Sanitizer bit mask of a candidate (lines 268-273 of the source): bit
`i` is set exactly when rule `i` answered `False`. -/
def sanitize_flag (sanitizer : List (TNode → Bool)) (c : TNode) : Nat :=
  sanitizer.enum.foldl (fun acc p => acc ||| (if p.2 c then 0 else 1 <<< p.1)) 0

/-- Terminal bit mask of a candidate (lines 275-278): bit `i` is set
exactly when rule `i` answered `True`. -/
def terminal_flag (terminal : List (TNode → Bool)) (c : TNode) : Nat :=
  terminal.enum.foldl (fun acc p => acc ||| (if p.2 c then 1 <<< p.1 else 0)) 0

/-- Candidate filtering loop of `run` (lines 267-281): a candidate whose
sanitizer mask is all-ones joins the next frontier, and additionally
joins the result appends when some terminal rule fired.  Returns
(frontier, result appends), each in candidate order. -/
def processCandidates (sanitizer terminal : List (TNode → Bool)) :
    List TNode → List TNode × List TNode
  | [] => ([], [])
  | c :: cs =>
    let rest := processCandidates sanitizer terminal cs
    if sanitize_flag sanitizer c = (1 <<< sanitizer.length) - 1 then
      if terminal_flag terminal c > 0 then (c :: rest.1, c :: rest.2)
      else (c :: rest.1, rest.2)
    else rest

/-- Visit-pool update of `run` (lines 252-260): answer `true` (already
visited: increment the counter) when the (origin, identity) pair is
present, else insert it with count 1, creating the origin's inner table
when missing. -/
def poolBump (pool : List (Option Nat × List (Nat × Nat))) (okey : Option Nat) (ident : Nat) :
    List (Option Nat × List (Nat × Nat)) × Bool :=
  match alookup pool okey with
  | some inner =>
    match alookup inner ident with
    | some cnt => (aset pool okey (aset inner ident (cnt + 1)), true)
    | none => (aset pool okey (aset inner ident 1), false)
  | none => (aset pool okey [(ident, 1)], false)

/-- Recording loop of `run` (lines 283-286): each frontier node is shown
to the recorder and enqueued only when the recorder answers `True`. -/
def recordLoop {σ : Type} (cfg : TravCfg σ) (r : RecState) (current : TNode) :
    List TNode → RecState × List TNode
  | [] => (r, [])
  | n :: ns =>
    let pb := cfg.record r current n
    let rest := recordLoop cfg pb.1 current ns
    (rest.1, (if pb.2 then [n] else []) ++ rest.2)

/-- Main loop of `run` (lines 247-286), fuel-indexed.  Besides the final
state it returns the expansion log: one `(origin, identity)` entry per
application of the step function, in expansion order. -/
def runLoop {σ : Type} (cfg : TravCfg σ) :
    Nat → List TNode → Trav σ → Trav σ × List (Option Nat × Nat)
  | 0, _, s => (s, [])
  | _ + 1, [], s => (s, [])
  | fuel + 1, current :: rest, s =>
    let pb := poolBump s.visit_node_pool current.origin current.identity
    if pb.2 then
      runLoop cfg fuel rest { s with visit_node_pool := pb.1 }
    else
      let s := { s with visit_node_pool := pb.1 }
      let st := cfg.step s.stepState current
      let node2 := st.2.map (fun n => { n with origin := current.origin })
      let pc := processCandidates cfg.sanitizer cfg.terminal node2
      let s := { s with stepState := st.1, result := s.result ++ pc.2 }
      let ra := recordLoop cfg s.recState current pc.1
      let s := { s with recState := ra.1 }
      let pr := runLoop cfg fuel (rest ++ ra.2) s
      (pr.1, (current.origin, current.identity) :: pr.2)

/-- Seeding loop of `run` (lines 241-245): queue each seed, give it an
empty inner visit table keyed by its own index, write its `origin`
property, and record it as an origin. -/
def seedLoop {σ : Type} (cfg : TravCfg σ) :
    List TNode → List (Option Nat × List (Nat × Nat)) → RecState →
    List TNode × List (Option Nat × List (Nat × Nat)) × RecState
  | [], pool, rec => ([], pool, rec)
  | o :: os, pool, rec =>
    let o' := { o with origin := some o.index }
    let rest := seedLoop cfg os (aset pool (some o.index) []) (cfg.record_origin rec o')
    (o' :: rest.1, rest.2.1, rest.2.2)

/-- Source method `BaseGraphTraversal.run`: reset the visit counter
pool, resolve seeds (an empty seed set propagates the `IndexError`
before any queue processing), seed the queue, and run the main loop.
Returns the final state, the raised error if any, and the expansion
log. -/
def run {σ : Type} (cfg : TravCfg σ) (fuel : Nat) (s0 : Trav σ) :
    Trav σ × Option String × List (Option Nat × Nat) :=
  let s := { s0 with visit_node_pool := [] }
  match init_traversal s with
  | Except.error e => (s, some e, [])
  | Except.ok s1 =>
    let sd := seedLoop cfg s1.origin s1.visit_node_pool s1.recState
    let s2 := { s1 with visit_node_pool := sd.2.1, recState := sd.2.2 }
    let pr := runLoop cfg fuel sd.1 s2
    (pr.1, none, pr.2)

/-!
Interprocedural backward data-flow step, class
`GlobalProgramDependencyGraphBackwardTraversal`.  The per-relation query
wrappers of `AnalysisFramework` are external collaborators and are
passed as oracle functions.
-/

/-- Node type tags from `pjscan.const` (the module itself is not part of
the analyzed sources; only distinctness of the tags matters here). -/
def TYPE_ASSIGN : String := "AST_ASSIGN"

/-- Node type tag of a plain call. -/
def TYPE_CALL : String := "AST_CALL"

/-- Node type tag of a method call. -/
def TYPE_METHOD_CALL : String := "AST_METHOD_CALL"

/-- Node type tag of a static call. -/
def TYPE_STATIC_CALL : String := "AST_STATIC_CALL"

/-- Query layer used by the interprocedural step, as oracle functions
(spec section 6 treats it as an external collaborator). -/
structure Framework where
  find_pdg_def_nodes : TNode → List TNode
  get_ast_ith_child_node : TNode → Nat → TNode
  filter_ast_child_nodes : TNode → List String → List TNode
  find_cg_decl_nodes : TNode → List TNode
  find_function_return_expr : TNode → List TNode

/-- Default of the `max_func_depth` keyword argument of the
interprocedural traversals. -/
def default_max_func_depth : Nat := 3

/-- Call-resolution loop of the interprocedural step (lines 395-404):
for each call node with a resolved declaration, assign each return
expression's function id a depth of the caller's depth plus one if that
id is not recorded yet, and append the return expressions. -/
def gpdgCallLoop (fw : Framework) (callerFid : Nat) :
    List TNode → List (Nat × Nat) × List TNode → List (Nat × Nat) × List TNode
  | [], acc => acc
  | call_node :: more, acc =>
    match fw.find_cg_decl_nodes call_node with
    | [] => gpdgCallLoop fw callerFid more acc
    | callable_node :: _ =>
      let return_nodes := fw.find_function_return_expr callable_node
      let fd := return_nodes.foldl (fun fd rn =>
        if (alookup fd rn.funcid).isNone then
          fd ++ [(rn.funcid, (alookup fd callerFid).getD 0 + 1)]
        else fd) acc.1
      gpdgCallLoop fw callerFid more (fd, acc.2 ++ return_nodes)

/-- Source method
`GlobalProgramDependencyGraphBackwardTraversal.traversal`: record depth
0 for an unseen function id, stop (empty answer) at recorded depth of at
least `max_func_depth`, take the intraprocedural data-flow definition
nodes, and for an assignment additionally walk into the return
expressions of each resolved call on its right-hand side, assigning
first-seen callee depths. -/
def gpdg_traversal (fw : Framework) (max_func_depth : Nat)
    (func_depth : List (Nat × Nat)) (node : TNode) : List (Nat × Nat) × List TNode :=
  let fd := if (alookup func_depth node.funcid).isNone then func_depth ++ [(node.funcid, 0)]
            else func_depth
  if max_func_depth ≤ (alookup fd node.funcid).getD 0 then (fd, [])
  else
    let result := fw.find_pdg_def_nodes node
    if node.ntype ≠ TYPE_ASSIGN then (fd, result)
    else
      let call_nodes := fw.filter_ast_child_nodes (fw.get_ast_ith_child_node node 1)
        [TYPE_CALL, TYPE_METHOD_CALL, TYPE_STATIC_CALL]
      gpdgCallLoop fw node.funcid call_nodes (fd, result)

/-!
Auxiliary definitions for the statements and for concrete scenarios.
-/

/-- Value of a little-endian bit list (bit `i` of the value is entry `i`
of the list); used to reason about the sanitizer and terminal masks. -/
def natOfBits : List Bool → Nat
  | [] => 0
  | b :: bs => (if b then 1 else 0) + 2 * natOfBits bs

/-- Growth preorder on cache states: no fetch flag is ever cleared and
no cached edge is ever dropped. -/
def CachePle (g g' : BasicCacheGraph) : Prop :=
  (∀ R d i, g.fetched R d i = true → g'.fetched R d i = true) ∧
  (∀ R e, e ∈ (g.rel R).edges → e ∈ (g'.rel R).edges)

/-- Presence of an (origin, identity) pair in the visit counter pool. -/
def inPool (pool : List (Option Nat × List (Nat × Nat))) (okey : Option Nat) (ident : Nat) : Prop :=
  ∃ inner, alookup pool okey = some inner ∧ (alookup inner ident).isSome = true

/-- Concrete node of index 1 (cache scenarios). -/
def exN1 : GNode := ⟨1, none⟩

/-- Concrete node of index 2 (cache scenarios). -/
def exN2 : GNode := ⟨2, none⟩

/-- Cache after `add_ast_outflow(node 1, [])`: node 1's structural
outflow is marked fetched with an empty edge set. -/
def exCacheOut : BasicCacheGraph := BasicCacheGraph.empty.add_ast_outflow exN1 []

/-- The previous cache after a later `add_ast_inflow(node 2, [rel 1→2])`:
the inbound write for node 2 inserts the edge 1→2. -/
def exCacheBoth : BasicCacheGraph := exCacheOut.add_ast_inflow exN2 [⟨exN1, exN2, none⟩]

/-- Cache after `add_pdg_inflow(node 2, [rel 1→2 var "x"])`. -/
def exPdgInCache : BasicCacheGraph :=
  BasicCacheGraph.empty.add_pdg_inflow exN2 [⟨exN1, exN2, some "x"⟩]

/-- Cache after `add_pdg_outflow(node 1, [rel 1→2 var "x"])`. -/
def exPdgOutCache : BasicCacheGraph :=
  BasicCacheGraph.empty.add_pdg_outflow exN1 [⟨exN1, exN2, some "x"⟩]

/-- Seed node of the diamond scenario. -/
def exS : TNode := ⟨10, 10, 0, "", none⟩

/-- Left intermediate node of the diamond scenario. -/
def exA : TNode := ⟨11, 11, 0, "", none⟩

/-- Right intermediate node of the diamond scenario. -/
def exB : TNode := ⟨12, 12, 0, "", none⟩

/-- Join node of the diamond scenario (the terminal). -/
def exT : TNode := ⟨13, 13, 0, "", none⟩

/-- The join node as `run` returns it, its `origin` property written. -/
def exT' : TNode := { exT with origin := some 10 }

/-- Step function of the diamond scenario: 10 → {11, 12}, 11 → {13},
12 → {13}, 13 → {}. -/
def exStepD : Unit → TNode → Unit × List TNode := fun _ n =>
  ((), if n.index == 10 then [exA, exB] else if n.index == 11 then [exT]
       else if n.index == 12 then [exT] else [])

/-- Diamond traversal configuration: default sanitizer, one terminal
rule firing on index 13, default recorder. -/
def exCfgD : TravCfg Unit :=
  ⟨exStepD, [DEFAULT_SANTITZER], [fun n => n.index == 13],
   graphTraversalRecorderRecord, graphTraversalRecorderRecordOrigin⟩

/-- Fresh diamond traversal instance seeded literally with node 10. -/
def exTravD : Trav Unit := ⟨[OriginEntry.litNode exS], [], [], [], (), RecState.empty⟩

/-- Fresh traversal instance with no literal origins and no resolvers. -/
def exTravEmpty : Trav Unit := ⟨[], [], [], [], (), RecState.empty⟩

/-- Oracle framework whose queries all answer nothing (witness
scenarios for the interprocedural step). -/
def exFw : Framework := ⟨fun _ => [], fun n _ => n, fun _ _ => [], fun _ => [], fun _ => []⟩

/-!
Association list lemmas.
-/

theorem alookup_aset_self {κ α : Type} [BEq κ] [LawfulBEq κ] (l : List (κ × α)) (k : κ) (v : α) :
    alookup (aset l k v) k = some v := by
  induction l with
  | nil => simp [aset, alookup]
  | cons p t ih =>
    by_cases h : p.1 = k
    · simp [aset, alookup, h]
    · simp [aset, alookup, h, ih]

theorem alookup_aset_ne {κ α : Type} [BEq κ] [LawfulBEq κ] (l : List (κ × α)) (k k' : κ) (v : α)
    (h : k' ≠ k) : alookup (aset l k v) k' = alookup l k' := by
  have hkk : ¬(k == k') = true := by simp; exact fun hh => h hh.symm
  induction l with
  | nil => simp [aset, alookup, hkk]
  | cons p t ih =>
    by_cases hp : p.1 = k
    · have hpk : ¬(p.1 == k') = true := by simp [hp]; exact fun hh => h hh.symm
      simp [aset, alookup, hp, hkk, hpk]
    · simp [aset, alookup, hp, ih]

theorem alookup_aset_isSome_mono {κ α : Type} [BEq κ] [LawfulBEq κ] (l : List (κ × α))
    (k k' : κ) (v : α) (h : (alookup l k').isSome = true) :
    (alookup (aset l k v) k').isSome = true := by
  by_cases hk : k' = k
  · subst hk; simp [alookup_aset_self]
  · rw [alookup_aset_ne l k k' v hk]; exact h

theorem alookup_append_some {κ α : Type} [BEq κ] (l m : List (κ × α)) (k : κ) (v : α)
    (h : alookup l k = some v) : alookup (l ++ m) k = some v := by
  induction l with
  | nil => simp [alookup] at h
  | cons p t ih =>
    rw [List.cons_append]
    by_cases hp : (p.1 == k) = true
    · rw [alookup, if_pos hp] at h
      rw [alookup, if_pos hp]
      exact h
    · rw [alookup, if_neg hp] at h
      rw [alookup, if_neg hp]
      exact ih h

theorem alookup_append_none {κ α : Type} [BEq κ] (l m : List (κ × α)) (k : κ)
    (h : alookup l k = none) : alookup (l ++ m) k = alookup m k := by
  induction l with
  | nil => simp [alookup]
  | cons p t ih =>
    rw [List.cons_append]
    by_cases hp : (p.1 == k) = true
    · rw [alookup, if_pos hp] at h
      exact absurd h (by simp)
    · rw [alookup, if_neg hp] at h
      rw [alookup, if_neg hp]
      exact ih h

theorem alookup_append_isSome_mono {κ α : Type} [BEq κ] (l m : List (κ × α)) (k : κ)
    (h : (alookup l k).isSome = true) : (alookup (l ++ m) k).isSome = true := by
  cases hl : alookup l k with
  | none => rw [hl] at h; simp at h
  | some v => simp [alookup_append_some l m k v hl]

/-!
Lemmas on the embedded `networkx.DiGraph`.
-/

theorem RelGraph.edges_addNode (g : RelGraph) (i : Nat) : (g.addNode i).edges = g.edges := by
  unfold RelGraph.addNode; split <;> rfl

theorem RelGraph.visOf_addNode (g : RelGraph) (i j : Nat) : (g.addNode i).visOf j = g.visOf j := by
  unfold RelGraph.addNode
  split
  · rfl
  · rename_i h
    unfold RelGraph.hasNode at h
    unfold RelGraph.visOf
    cases hj : alookup g.visiable j with
    | some v => simp [alookup_append_some _ _ _ _ hj]
    | none =>
      rw [alookup_append_none _ _ _ hj]
      by_cases hij : i = j
      · subst hij; simp [alookup]
      · simp [alookup, hij, hj]

theorem RelGraph.hasNode_addNode_self (g : RelGraph) (i : Nat) :
    (g.addNode i).hasNode i = true := by
  unfold RelGraph.addNode
  split
  · assumption
  · unfold RelGraph.hasNode at *
    rename_i h
    cases hl : alookup g.visiable i with
    | some v => simp [hl] at h
    | none => rw [alookup_append_none _ _ _ hl]; simp [alookup]

theorem RelGraph.hasNode_addNode_mono (g : RelGraph) (i j : Nat)
    (h : g.hasNode j = true) : (g.addNode i).hasNode j = true := by
  unfold RelGraph.addNode
  split
  · exact h
  · unfold RelGraph.hasNode at *
    exact alookup_append_isSome_mono _ _ _ h

theorem RelGraph.edges_setVis (g : RelGraph) (i v : Nat) : (g.setVis i v).edges = g.edges := rfl

theorem RelGraph.visOf_setVis_self (g : RelGraph) (i v : Nat) : (g.setVis i v).visOf i = v := by
  unfold RelGraph.setVis RelGraph.visOf
  simp [alookup_aset_self]

theorem RelGraph.visOf_setVis_ne (g : RelGraph) (i j v : Nat) (h : j ≠ i) :
    (g.setVis i v).visOf j = g.visOf j := by
  unfold RelGraph.setVis RelGraph.visOf
  simp [alookup_aset_ne _ _ _ _ h]

theorem RelGraph.hasNode_setVis_mono (g : RelGraph) (i j v : Nat)
    (h : g.hasNode j = true) : (g.setVis i v).hasNode j = true := by
  unfold RelGraph.setVis RelGraph.hasNode at *
  exact alookup_aset_isSome_mono _ _ _ _ h

theorem RelGraph.hasNode_setVis_self (g : RelGraph) (i v : Nat) :
    (g.setVis i v).hasNode i = true := by
  unfold RelGraph.setVis RelGraph.hasNode
  simp [alookup_aset_self]

theorem RelGraph.visOf_addEdge (g : RelGraph) (s t : Nat) (tv : Option String) (j : Nat) :
    (g.addEdge s t tv).visOf j = g.visOf j := rfl

theorem RelGraph.hasNode_addEdge (g : RelGraph) (s t : Nat) (tv : Option String) (j : Nat) :
    (g.addEdge s t tv).hasNode j = g.hasNode j := rfl

theorem RelGraph.mem_edges_addEdge (g : RelGraph) (s t : Nat) (tv : Option String)
    (e : Nat × Nat × Option String) (h : e ∈ g.edges) : e ∈ (g.addEdge s t tv).edges := by
  unfold RelGraph.addEdge
  simp only [List.mem_append]
  exact Or.inl h

theorem RelGraph.mem_successors (g : RelGraph) (i j : Nat) :
    j ∈ g.successors i ↔ ∃ tv, (i, j, tv) ∈ g.edges := by
  unfold RelGraph.successors
  rw [List.mem_filterMap]
  constructor
  · rintro ⟨⟨a, b, c⟩, he, hf⟩
    by_cases h : a = i
    · subst h
      simp at hf
      subst hf
      exact ⟨c, he⟩
    · simp [h] at hf
  · rintro ⟨tv, he⟩
    exact ⟨(i, j, tv), he, by simp⟩

theorem RelGraph.mem_predecessors (g : RelGraph) (i j : Nat) :
    j ∈ g.predecessors i ↔ ∃ tv, (j, i, tv) ∈ g.edges := by
  unfold RelGraph.predecessors
  rw [List.mem_filterMap]
  constructor
  · rintro ⟨⟨a, b, c⟩, he, hf⟩
    by_cases h : b = i
    · subst h
      simp at hf
      subst hf
      exact ⟨c, he⟩
    · simp [h] at hf
  · rintro ⟨tv, he⟩
    exact ⟨(j, i, tv), he, by simp⟩

theorem land_lor_ne_zero (v w b : Nat) (h : v &&& b ≠ 0) : (v ||| w) &&& b ≠ 0 := by
  intro hc
  apply h
  apply Nat.eq_of_testBit_eq
  intro i
  have hz := congrArg (fun x => Nat.testBit x i) hc
  simp only [Nat.testBit_land, Nat.testBit_lor, Nat.zero_testBit] at hz ⊢
  cases hv : v.testBit i <;> cases hb : b.testBit i <;> simp_all

theorem RelGraph.addNode_of_hasNode (g : RelGraph) (i : Nat) (h : g.hasNode i = true) :
    g.addNode i = g := by
  unfold RelGraph.addNode
  rw [if_pos h]

/-!
Lemmas on `BasicCacheGraph` operations.
-/

theorem BasicCacheGraph.rel_setRel (g : BasicCacheGraph) (R R' : RelKind) (r : RelGraph) :
    (g.setRel R r).rel R' = if R' = R then r else g.rel R' := by
  cases R <;> cases R' <;> simp [BasicCacheGraph.setRel, BasicCacheGraph.rel]

theorem BasicCacheGraph.rel_add_node (g : BasicCacheGraph) (node : GNode) (s : String)
    (R : RelKind) : (g.add_node node s).rel R = (g.rel R).addNode node.index := by
  cases R <;> (simp only [BasicCacheGraph.add_node, BasicCacheGraph.rel]; split <;> rfl)

theorem BasicCacheGraph.pool_add_node_some_mono (g : BasicCacheGraph) (node : GNode) (s : String)
    (i : Nat) (v : GNode) (h : alookup g.node_cache_pool i = some v) :
    alookup (g.add_node node s).node_cache_pool i = some v := by
  simp only [BasicCacheGraph.add_node]
  split
  · exact h
  · exact alookup_append_some _ _ _ _ h

theorem BasicCacheGraph.pool_add_node_self (g : BasicCacheGraph) (node : GNode) (s : String) :
    (alookup (g.add_node node s).node_cache_pool node.index).isSome = true := by
  simp only [BasicCacheGraph.add_node]
  split
  · rename_i h; exact h
  · rename_i h
    cases hl : alookup g.node_cache_pool node.index with
    | some v => exact absurd (by simp [hl]) h
    | none =>
      show (alookup (g.node_cache_pool ++ [(node.index, node)]) node.index).isSome = true
      rw [alookup_append_none _ _ _ hl]
      simp [alookup]

theorem BasicCacheGraph.pool_add_node_isSome_mono (g : BasicCacheGraph) (node : GNode)
    (s : String) (i : Nat) (h : (alookup g.node_cache_pool i).isSome = true) :
    (alookup (g.add_node node s).node_cache_pool i).isSome = true := by
  cases hl : alookup g.node_cache_pool i with
  | none => rw [hl] at h; simp at h
  | some v => simp [BasicCacheGraph.pool_add_node_some_mono g node s i v hl]

theorem BasicCacheGraph.add_node_noop (g : BasicCacheGraph) (node : GNode) (s : String)
    (h1 : ∀ R, (g.rel R).hasNode node.index = true)
    (h2 : (alookup g.node_cache_pool node.index).isSome = true) :
    g.add_node node s = g := by
  have ea := RelGraph.addNode_of_hasNode _ _ (h1 RelKind.ast)
  have ec := RelGraph.addNode_of_hasNode _ _ (h1 RelKind.cfg)
  have ep := RelGraph.addNode_of_hasNode _ _ (h1 RelKind.pdg)
  have eg := RelGraph.addNode_of_hasNode _ _ (h1 RelKind.cg)
  simp only [BasicCacheGraph.rel] at ea ec ep eg
  simp only [BasicCacheGraph.add_node, ea, ec, ep, eg, h2]
  simp

theorem BasicCacheGraph.fetched_add_node (g : BasicCacheGraph) (node : GNode) (s : String)
    (R : RelKind) (d : Dir) (i : Nat) :
    (g.add_node node s).fetched R d i = g.fetched R d i := by
  unfold BasicCacheGraph.fetched
  rw [BasicCacheGraph.rel_add_node, RelGraph.visOf_addNode]

theorem BasicCacheGraph.edges_add_node (g : BasicCacheGraph) (node : GNode) (s : String)
    (R : RelKind) : ((g.add_node node s).rel R).edges = (g.rel R).edges := by
  rw [BasicCacheGraph.rel_add_node, RelGraph.edges_addNode]

theorem BasicCacheGraph.hasNode_add_node_self (g : BasicCacheGraph) (node : GNode) (s : String)
    (R : RelKind) : ((g.add_node node s).rel R).hasNode node.index = true := by
  rw [BasicCacheGraph.rel_add_node]
  exact RelGraph.hasNode_addNode_self _ _

theorem BasicCacheGraph.hasNode_add_node_mono (g : BasicCacheGraph) (node : GNode) (s : String)
    (R : RelKind) (j : Nat) (h : (g.rel R).hasNode j = true) :
    ((g.add_node node s).rel R).hasNode j = true := by
  rw [BasicCacheGraph.rel_add_node]
  exact RelGraph.hasNode_addNode_mono _ _ _ h

theorem BasicCacheGraph.visOf_addFlowLoop (R : RelKind) (d : Dir) (c : Nat) (rels : List GRel) :
    ∀ (g : BasicCacheGraph) (R' : RelKind) (i : Nat),
    ((addFlowLoop R d c rels g).rel R').visOf i = (g.rel R').visOf i := by
  induction rels with
  | nil => intro g R' i; rfl
  | cons r rs ih =>
    intro g R' i
    show ((addFlowLoop R d c rs _).rel R').visOf i = _
    rw [ih]
    split
    · rw [BasicCacheGraph.rel_add_node, RelGraph.visOf_addNode]
    · rw [BasicCacheGraph.rel_setRel]
      by_cases hR : R' = R
      · rw [if_pos hR, RelGraph.visOf_addEdge]
        subst hR
        rw [BasicCacheGraph.rel_add_node, RelGraph.visOf_addNode]
      · rw [if_neg hR, BasicCacheGraph.rel_add_node, RelGraph.visOf_addNode]

theorem BasicCacheGraph.mem_edges_addFlowLoop (R : RelKind) (d : Dir) (c : Nat)
    (rels : List GRel) : ∀ (g : BasicCacheGraph) (R' : RelKind) (e : Nat × Nat × Option String),
    e ∈ (g.rel R').edges → e ∈ ((addFlowLoop R d c rels g).rel R').edges := by
  induction rels with
  | nil => intro g R' e he; exact he
  | cons r rs ih =>
    intro g R' e he
    show e ∈ ((addFlowLoop R d c rs _).rel R').edges
    apply ih
    split
    · rw [BasicCacheGraph.edges_add_node]; exact he
    · rw [BasicCacheGraph.rel_setRel]
      by_cases hR : R' = R
      · rw [if_pos hR]
        apply RelGraph.mem_edges_addEdge
        subst hR
        rw [BasicCacheGraph.edges_add_node]
        exact he
      · rw [if_neg hR, BasicCacheGraph.rel_add_node, RelGraph.edges_addNode]
        exact he

theorem BasicCacheGraph.hasNode_addFlowLoop_mono (R : RelKind) (d : Dir) (c : Nat)
    (rels : List GRel) : ∀ (g : BasicCacheGraph) (R' : RelKind) (j : Nat),
    (g.rel R').hasNode j = true → ((addFlowLoop R d c rels g).rel R').hasNode j = true := by
  induction rels with
  | nil => intro g R' j h; exact h
  | cons r rs ih =>
    intro g R' j h
    show ((addFlowLoop R d c rs _).rel R').hasNode j = true
    apply ih
    split
    · exact BasicCacheGraph.hasNode_add_node_mono _ _ _ _ _ h
    · rw [BasicCacheGraph.rel_setRel]
      by_cases hR : R' = R
      · rw [if_pos hR, RelGraph.hasNode_addEdge]
        subst hR
        exact BasicCacheGraph.hasNode_add_node_mono _ _ _ _ _ h
      · rw [if_neg hR]
        exact BasicCacheGraph.hasNode_add_node_mono _ _ _ _ _ h

theorem BasicCacheGraph.pool_addFlowLoop_some_mono (R : RelKind) (d : Dir) (c : Nat)
    (rels : List GRel) : ∀ (g : BasicCacheGraph) (i : Nat) (v : GNode),
    alookup g.node_cache_pool i = some v →
    alookup (addFlowLoop R d c rels g).node_cache_pool i = some v := by
  induction rels with
  | nil => intro g i v h; exact h
  | cons r rs ih =>
    intro g i v h
    show alookup (addFlowLoop R d c rs _).node_cache_pool i = some v
    apply ih
    have h' := BasicCacheGraph.pool_add_node_some_mono g (r.other d) "traversal" i v h
    split
    · exact h'
    · cases R <;> exact h'

theorem BasicCacheGraph.pool_addFlowLoop_isSome_mono (R : RelKind) (d : Dir) (c : Nat)
    (rels : List GRel) (g : BasicCacheGraph) (i : Nat)
    (h : (alookup g.node_cache_pool i).isSome = true) :
    (alookup (addFlowLoop R d c rels g).node_cache_pool i).isSome = true := by
  cases hl : alookup g.node_cache_pool i with
  | none => rw [hl] at h; simp at h
  | some v => simp [BasicCacheGraph.pool_addFlowLoop_some_mono R d c rels g i v hl]

theorem BasicCacheGraph.fetched_addFlow_mono (g : BasicCacheGraph) (R : RelKind) (d : Dir)
    (n : GNode) (rels : List GRel) (R' : RelKind) (d' : Dir) (i : Nat)
    (h : g.fetched R' d' i = true) : (g.addFlow R d n rels).fetched R' d' i = true := by
  simp only [BasicCacheGraph.addFlow]
  split
  · rw [BasicCacheGraph.fetched_add_node]; exact h
  · unfold BasicCacheGraph.fetched at h ⊢
    rw [BasicCacheGraph.visOf_addFlowLoop, BasicCacheGraph.rel_setRel]
    by_cases hR : R' = R
    · rw [if_pos hR]
      subst hR
      by_cases hi : i = n.index
      · subst hi
        rw [RelGraph.visOf_setVis_self, BasicCacheGraph.rel_add_node, RelGraph.visOf_addNode]
        simp only [bne_iff_ne, ne_eq] at h ⊢
        exact land_lor_ne_zero _ _ _ h
      · rw [RelGraph.visOf_setVis_ne _ _ _ _ hi, BasicCacheGraph.rel_add_node,
          RelGraph.visOf_addNode]
        exact h
    · rw [if_neg hR, BasicCacheGraph.rel_add_node, RelGraph.visOf_addNode]
      exact h

theorem BasicCacheGraph.mem_edges_addFlow_mono (g : BasicCacheGraph) (R : RelKind) (d : Dir)
    (n : GNode) (rels : List GRel) (R' : RelKind) (e : Nat × Nat × Option String)
    (h : e ∈ (g.rel R').edges) : e ∈ ((g.addFlow R d n rels).rel R').edges := by
  simp only [BasicCacheGraph.addFlow]
  split
  · rw [BasicCacheGraph.edges_add_node]; exact h
  · apply BasicCacheGraph.mem_edges_addFlowLoop
    rw [BasicCacheGraph.rel_setRel]
    by_cases hR : R' = R
    · rw [if_pos hR, RelGraph.edges_setVis]
      subst hR
      rw [BasicCacheGraph.edges_add_node]
      exact h
    · rw [if_neg hR, BasicCacheGraph.rel_add_node, RelGraph.edges_addNode]
      exact h

theorem BasicCacheGraph.getFlow_fst (g : BasicCacheGraph) (R : RelKind) (d : Dir) (n : GNode) :
    (g.getFlow R d n).1 = g.add_node n "traversal" := by
  simp only [BasicCacheGraph.getFlow]
  split <;> rfl

theorem BasicCacheGraph.get_pdg_outflow_fst_rel (g : BasicCacheGraph) (n : GNode) (R' : RelKind) :
    ((g.get_pdg_outflow n).1).rel R' = (g.add_node n "traversal").rel R' := by
  simp only [BasicCacheGraph.get_pdg_outflow]
  split
  · cases R' <;> rfl
  · rfl

theorem BasicCacheGraph.fetched_getFlowD (g : BasicCacheGraph) (R : RelKind) (d : Dir)
    (n : GNode) (R' : RelKind) (d' : Dir) (i : Nat) :
    ((g.getFlowD R d n).1).fetched R' d' i = g.fetched R' d' i := by
  have hgen : ∀ RR dd, ((g.getFlow RR dd n).1).fetched R' d' i = g.fetched R' d' i := by
    intro RR dd
    rw [BasicCacheGraph.getFlow_fst, BasicCacheGraph.fetched_add_node]
  have hpdg : ((g.get_pdg_outflow n).1).fetched R' d' i = g.fetched R' d' i := by
    unfold BasicCacheGraph.fetched
    rw [BasicCacheGraph.get_pdg_outflow_fst_rel, BasicCacheGraph.rel_add_node,
      RelGraph.visOf_addNode]
  cases R <;> cases d
  case pdg.outflow => simp only [BasicCacheGraph.getFlowD]; exact hpdg
  all_goals (simp only [BasicCacheGraph.getFlowD]; exact hgen _ _)

theorem BasicCacheGraph.edges_getFlowD (g : BasicCacheGraph) (R : RelKind) (d : Dir)
    (n : GNode) (R' : RelKind) :
    (((g.getFlowD R d n).1).rel R').edges = (g.rel R').edges := by
  have hgen : ∀ RR dd, (((g.getFlow RR dd n).1).rel R').edges = (g.rel R').edges := by
    intro RR dd
    rw [BasicCacheGraph.getFlow_fst, BasicCacheGraph.edges_add_node]
  have hpdg : (((g.get_pdg_outflow n).1).rel R').edges = (g.rel R').edges := by
    rw [BasicCacheGraph.get_pdg_outflow_fst_rel, BasicCacheGraph.edges_add_node]
  cases R <;> cases d
  case pdg.outflow => simp only [BasicCacheGraph.getFlowD]; exact hpdg
  all_goals (simp only [BasicCacheGraph.getFlowD]; exact hgen _ _)

theorem cachePle_refl (g : BasicCacheGraph) : CachePle g g :=
  ⟨fun _ _ _ h => h, fun _ _ h => h⟩

theorem cachePle_trans {g1 g2 g3 : BasicCacheGraph} (h1 : CachePle g1 g2)
    (h2 : CachePle g2 g3) : CachePle g1 g3 :=
  ⟨fun R d i h => h2.1 R d i (h1.1 R d i h), fun R e h => h2.2 R e (h1.2 R e h)⟩

theorem cachePle_apply (g : BasicCacheGraph) (op : CacheOp) : CachePle g (CacheOp.apply g op) := by
  cases op with
  | opAddNode n s =>
    refine ⟨fun R d i h => ?_, fun R e h => ?_⟩
    · show (g.add_node n s).fetched R d i = true
      rw [BasicCacheGraph.fetched_add_node]; exact h
    · show e ∈ ((g.add_node n s).rel R).edges
      rw [BasicCacheGraph.edges_add_node]; exact h
  | opAddFlow R0 d0 n rels =>
    exact ⟨fun R d i h => BasicCacheGraph.fetched_addFlow_mono g R0 d0 n rels R d i h,
           fun R e h => BasicCacheGraph.mem_edges_addFlow_mono g R0 d0 n rels R e h⟩
  | opGetFlow R0 d0 n =>
    refine ⟨fun R d i h => ?_, fun R e h => ?_⟩
    · show ((g.getFlowD R0 d0 n).1).fetched R d i = true
      rw [BasicCacheGraph.fetched_getFlowD]; exact h
    · show e ∈ (((g.getFlowD R0 d0 n).1).rel R).edges
      rw [BasicCacheGraph.edges_getFlowD]; exact h

theorem cachePle_applyOps (ops : List CacheOp) : ∀ g : BasicCacheGraph,
    CachePle g (applyOps ops g) := by
  induction ops with
  | nil => intro g; exact cachePle_refl g
  | cons op ops ih =>
    intro g
    have h1 : applyOps (op :: ops) g = applyOps ops (CacheOp.apply g op) := rfl
    rw [h1]
    exact cachePle_trans (cachePle_apply g op) (ih _)

theorem neighborIds_mono_of_ple {g g' : BasicCacheGraph} (h : CachePle g g')
    (R : RelKind) (d : Dir) (i j : Nat) (hj : j ∈ g.neighborIds R d i) :
    j ∈ g'.neighborIds R d i := by
  cases d with
  | inflow =>
    unfold BasicCacheGraph.neighborIds at hj ⊢
    rw [RelGraph.mem_predecessors] at hj ⊢
    obtain ⟨tv, he⟩ := hj
    exact ⟨tv, h.2 R _ he⟩
  | outflow =>
    unfold BasicCacheGraph.neighborIds at hj ⊢
    rw [RelGraph.mem_successors] at hj ⊢
    obtain ⟨tv, he⟩ := hj
    exact ⟨tv, h.2 R _ he⟩

theorem BasicCacheGraph.fetched_addFlow_self (g : BasicCacheGraph) (R : RelKind) (d : Dir)
    (n : GNode) (rels : List GRel) : (g.addFlow R d n rels).fetched R d n.index = true := by
  simp only [BasicCacheGraph.addFlow]
  split
  · rename_i h
    exact h
  · unfold BasicCacheGraph.fetched
    rw [BasicCacheGraph.visOf_addFlowLoop, BasicCacheGraph.rel_setRel, if_pos rfl,
      RelGraph.visOf_setVis_self]
    simp only [bne_iff_ne, ne_eq]
    have hb : dirBit d &&& dirBit d ≠ 0 := by cases d <;> decide
    have hh := land_lor_ne_zero (dirBit d)
      (((g.add_node n "traversal").rel R).visOf n.index) (dirBit d) hb
    rw [Nat.lor_comm] at hh
    exact hh

theorem BasicCacheGraph.registered_addFlow (g : BasicCacheGraph) (R : RelKind) (d : Dir)
    (n : GNode) (rels : List GRel) :
    (∀ R', ((g.addFlow R d n rels).rel R').hasNode n.index = true) ∧
    (alookup (g.addFlow R d n rels).node_cache_pool n.index).isSome = true := by
  simp only [BasicCacheGraph.addFlow]
  split
  · exact ⟨fun R' => BasicCacheGraph.hasNode_add_node_self g n "traversal" R',
           BasicCacheGraph.pool_add_node_self g n "traversal"⟩
  · constructor
    · intro R'
      apply BasicCacheGraph.hasNode_addFlowLoop_mono
      rw [BasicCacheGraph.rel_setRel]
      by_cases hR : R' = R
      · rw [if_pos hR]
        exact RelGraph.hasNode_setVis_self _ _ _
      · rw [if_neg hR]
        exact BasicCacheGraph.hasNode_add_node_self g n "traversal" R'
    · apply BasicCacheGraph.pool_addFlowLoop_isSome_mono
      have hp : ((g.add_node n "traversal").setRel R
          (((g.add_node n "traversal").rel R).setVis n.index
            (((g.add_node n "traversal").rel R).visOf n.index ||| dirBit d))).node_cache_pool
          = (g.add_node n "traversal").node_cache_pool := by
        cases R <;> rfl
      rw [hp]
      exact BasicCacheGraph.pool_add_node_self g n "traversal"

theorem BasicCacheGraph.addFlow_idem (g : BasicCacheGraph) (R : RelKind) (d : Dir) (n : GNode)
    (rels rels2 : List GRel) :
    (g.addFlow R d n rels).addFlow R d n rels2 = g.addFlow R d n rels := by
  have hreg := BasicCacheGraph.registered_addFlow g R d n rels
  have hf := BasicCacheGraph.fetched_addFlow_self g R d n rels
  generalize hG : g.addFlow R d n rels = G at hreg hf
  unfold BasicCacheGraph.fetched at hf
  simp only [BasicCacheGraph.addFlow]
  rw [BasicCacheGraph.add_node_noop G n "traversal" hreg.1 hreg.2, if_pos hf]

theorem BasicCacheGraph.getFlow_snd_none_iff (g : BasicCacheGraph) (R : RelKind) (d : Dir)
    (n : GNode) : ((g.getFlow R d n).2 = none) ↔ (g.fetched R d n.index = false) := by
  have hc : (((g.add_node n "traversal").rel R).visOf n.index &&& dirBit d != 0)
      = g.fetched R d n.index := by
    unfold BasicCacheGraph.fetched
    rw [BasicCacheGraph.rel_add_node, RelGraph.visOf_addNode]
  simp only [BasicCacheGraph.getFlow]
  split
  · rename_i h
    rw [hc] at h
    simp [h]
  · rename_i h
    rw [hc] at h
    simp only [Bool.not_eq_true] at h
    simp [h]

theorem BasicCacheGraph.get_pdg_outflow_snd_none_iff (g : BasicCacheGraph) (n : GNode) :
    ((g.get_pdg_outflow n).2 = none) ↔ (g.fetched RelKind.pdg Dir.outflow n.index = false) := by
  have hc : ((g.add_node n "traversal").pdg_cache_graph.visOf n.index &&& 2 != 0)
      = g.fetched RelKind.pdg Dir.outflow n.index := by
    unfold BasicCacheGraph.fetched
    have : (g.add_node n "traversal").pdg_cache_graph
        = ((g.add_node n "traversal").rel RelKind.pdg) := rfl
    rw [this, BasicCacheGraph.rel_add_node, RelGraph.visOf_addNode]
    rfl
  simp only [BasicCacheGraph.get_pdg_outflow]
  split
  · rename_i h
    rw [hc] at h
    simp [h]
  · rename_i h
    rw [hc] at h
    simp only [Bool.not_eq_true] at h
    simp [h]

theorem BasicCacheGraph.getFlowD_snd_none_iff (g : BasicCacheGraph) (R : RelKind) (d : Dir)
    (n : GNode) : ((g.getFlowD R d n).2 = none) ↔ (g.fetched R d n.index = false) := by
  cases R <;> cases d
  case pdg.outflow =>
    simp only [BasicCacheGraph.getFlowD]
    rw [Option.map_eq_none']
    exact BasicCacheGraph.get_pdg_outflow_snd_none_iff g n
  all_goals (simp only [BasicCacheGraph.getFlowD]
             exact BasicCacheGraph.getFlow_snd_none_iff g _ _ n)

/-- C2.  For every relation and node, the cache accessor
`get_<relation>_<direction>` answers the `None` sentinel exactly when
the direction's fetch bit for the node is unset, otherwise it answers
`Some` of the cached neighbor list (possibly empty, a valid complete
answer distinct from `None`), and the accessor never fetches: it sets no
fetch bit and adds no edge. -/
theorem C2_get_unknown_iff :
    ∀ (g : BasicCacheGraph) (R : RelKind) (d : Dir) (n : GNode),
      ((g.getFlowD R d n).2 = none ↔ g.fetched R d n.index = false)
    ∧ (g.fetched R d n.index = true → ∃ l, (g.getFlowD R d n).2 = some l)
    ∧ (∀ R' d' i, ((g.getFlowD R d n).1).fetched R' d' i = g.fetched R' d' i)
    ∧ (∀ R', (((g.getFlowD R d n).1).rel R').edges = (g.rel R').edges) := by
  intro g R d n
  refine ⟨BasicCacheGraph.getFlowD_snd_none_iff g R d n, ?_, ?_, ?_⟩
  · intro hf
    cases h2 : (g.getFlowD R d n).2 with
    | none =>
      have := (BasicCacheGraph.getFlowD_snd_none_iff g R d n).mp h2
      rw [hf] at this
      exact absurd this (by simp)
    | some l => exact ⟨l, rfl⟩
  · intro R' d' i
    exact BasicCacheGraph.fetched_getFlowD g R d n R' d' i
  · intro R'
    exact BasicCacheGraph.edges_getFlowD g R d n R'

/-- Witness for C2 at a concrete input: the fresh outbound-fetched cache
answers `Some []` for node 1's structural outflow. -/
theorem C2_get_unknown_iff_witness :
    exCacheOut.fetched RelKind.ast Dir.outflow 1 = true ∧
    ∃ l, (exCacheOut.getFlowD RelKind.ast Dir.outflow exN1).2 = some l :=
  ⟨by decide, (C2_get_unknown_iff exCacheOut RelKind.ast Dir.outflow exN1).2.1 (by decide)⟩

/-- C1 counterexample.  In `exCacheOut` node 1's structural outflow is
marked fetched with an empty successor set, yet after one more session
operation (an inbound write for node 2 inserting the edge 1→2, exactly
`exCacheBoth`) `get_ast_outflow(node 1)` answers a different neighbor
set, refuting "every subsequent get returns exactly the same neighbor
set". -/
theorem C1_counterexample :
    exCacheOut.fetched RelKind.ast Dir.outflow 1 = true ∧
    exCacheBoth = applyOps [CacheOp.opAddFlow RelKind.ast Dir.inflow exN2 [⟨exN1, exN2, none⟩]]
      exCacheOut ∧
    (exCacheOut.get_ast_outflow exN1).2 = some [] ∧
    (exCacheBoth.get_ast_outflow exN1).2 = some [some exN2] ∧
    (exCacheOut.get_ast_outflow exN1).2 ≠ (exCacheBoth.get_ast_outflow exN1).2 := by
  refine ⟨by decide, by decide, by decide, by decide, by decide⟩

/-- C1 (amended).  Once a direction of a node is marked fetched it stays
fetched across any further session operations, a repeated
`add_<relation>_<direction>` call for the same node, relation and
direction leaves the whole cache state unchanged, and the cached
neighbor set can only grow across the session (gets can differ only by
new neighbors, added by opposite-direction writes on other nodes, as the
counterexample forces — never by losing one). -/
theorem C1_cache_monotone_amended :
    (∀ (ops : List CacheOp) (g : BasicCacheGraph) (R : RelKind) (d : Dir) (i : Nat),
      g.fetched R d i = true → (applyOps ops g).fetched R d i = true)
  ∧ (∀ (ops : List CacheOp) (g : BasicCacheGraph) (R : RelKind) (d : Dir) (i j : Nat),
      j ∈ g.neighborIds R d i → j ∈ (applyOps ops g).neighborIds R d i)
  ∧ (∀ (g : BasicCacheGraph) (R : RelKind) (d : Dir) (n : GNode) (rels rels2 : List GRel),
      (g.addFlow R d n rels).addFlow R d n rels2 = g.addFlow R d n rels) := by
  refine ⟨?_, ?_, ?_⟩
  · intro ops g R d i h
    exact (cachePle_applyOps ops g).1 R d i h
  · intro ops g R d i j h
    exact neighborIds_mono_of_ple (cachePle_applyOps ops g) R d i j h
  · intro g R d n rels rels2
    exact BasicCacheGraph.addFlow_idem g R d n rels rels2

/-- Witness for the amended C1 at a concrete input: node 1's fetched
outflow flag and its cached successor 2 survive a further session
operation, and a second identical write is a no-op. -/
theorem C1_cache_monotone_amended_witness :
    (exCacheBoth.fetched RelKind.ast Dir.outflow 1 = true ∧
      (applyOps [CacheOp.opGetFlow RelKind.ast Dir.outflow exN1] exCacheBoth).fetched
        RelKind.ast Dir.outflow 1 = true) ∧
    (2 ∈ exCacheBoth.neighborIds RelKind.ast Dir.outflow 1 ∧
      2 ∈ (applyOps [CacheOp.opAddNode exN1 "traversal"] exCacheBoth).neighborIds
        RelKind.ast Dir.outflow 1) ∧
    (BasicCacheGraph.empty.addFlow RelKind.ast Dir.outflow exN1 []).addFlow
        RelKind.ast Dir.outflow exN1 [⟨exN1, exN2, none⟩]
      = BasicCacheGraph.empty.addFlow RelKind.ast Dir.outflow exN1 [] := by
  refine ⟨⟨by decide, ?_⟩, ⟨by decide, ?_⟩, ?_⟩
  · exact C1_cache_monotone_amended.1 [CacheOp.opGetFlow RelKind.ast Dir.outflow exN1]
      exCacheBoth RelKind.ast Dir.outflow 1 (by decide)
  · exact C1_cache_monotone_amended.2.1 [CacheOp.opAddNode exN1 "traversal"]
      exCacheBoth RelKind.ast Dir.outflow 1 2 (by decide)
  · exact C1_cache_monotone_amended.2.2 BasicCacheGraph.empty RelKind.ast Dir.outflow exN1
      [] [⟨exN1, exN2, none⟩]

/-!
Data-flow taint propagation through the cache (claim C8).
-/

theorem BasicCacheGraph.pool_add_node_of_isSome (g : BasicCacheGraph) (node : GNode) (s : String)
    (h : (alookup g.node_cache_pool node.index).isSome = true) :
    (g.add_node node s).node_cache_pool = g.node_cache_pool := by
  simp only [BasicCacheGraph.add_node]
  rw [if_pos h]

theorem RelGraph.find?_none_of_hasEdge_false (g : RelGraph) (s t : Nat)
    (h : g.hasEdge s t = false) :
    g.edges.find? (fun e => e.1 == s && e.2.1 == t) = none := by
  rw [List.find?_eq_none]
  unfold RelGraph.hasEdge at h
  rw [List.any_eq_false] at h
  exact h

theorem RelGraph.edgeVar_eq_of_extra (g g' : RelGraph) (extra : List (Nat × Nat × Option String))
    (s t : Nat) (hedges : g'.edges = g.edges ++ extra)
    (hno : ∀ e ∈ extra, ¬(e.1 = s ∧ e.2.1 = t)) : g'.edgeVar s t = g.edgeVar s t := by
  unfold RelGraph.edgeVar
  rw [hedges, List.find?_append]
  have hx : extra.find? (fun e => e.1 == s && e.2.1 == t) = none := by
    rw [List.find?_eq_none]
    intro e he hb
    simp only [Bool.and_eq_true, beq_iff_eq] at hb
    exact hno e he hb
  rw [hx, Option.or_none]

theorem addFlowLoop_pdg_out_shape (c : Nat) : ∀ (rels : List GRel) (g : BasicCacheGraph),
    ∃ extra, ((addFlowLoop RelKind.pdg Dir.outflow c rels g).rel RelKind.pdg).edges
        = ((g.rel RelKind.pdg)).edges ++ extra
      ∧ ∀ e ∈ extra, e.1 = c ∧ e.2.1 ∈ rels.map (fun r => r.end_node.index) := by
  intro rels
  induction rels with
  | nil => intro g; exact ⟨[], by simp [addFlowLoop], by simp⟩
  | cons r rs ih =>
    intro g
    simp only [addFlowLoop]
    split
    · obtain ⟨extra, he, hall⟩ := ih _
      refine ⟨extra, ?_, ?_⟩
      · rw [he, BasicCacheGraph.edges_add_node]
      · intro e hee
        refine ⟨(hall e hee).1, ?_⟩
        simp only [List.map_cons, List.mem_cons]
        exact Or.inr (hall e hee).2
    · obtain ⟨extra, he, hall⟩ := ih _
      refine ⟨((edgeEnds c r Dir.outflow).1, (edgeEnds c r Dir.outflow).2,
          edgeAttr RelKind.pdg r) :: extra, ?_, ?_⟩
      · rw [he]
        have h2 : ((((g.add_node (r.other Dir.outflow) "traversal")).setRel RelKind.pdg
            ((((g.add_node (r.other Dir.outflow) "traversal")).rel RelKind.pdg).addEdge
              (edgeEnds c r Dir.outflow).1 (edgeEnds c r Dir.outflow).2
              (edgeAttr RelKind.pdg r))).rel RelKind.pdg).edges
            = ((g.rel RelKind.pdg)).edges ++ [((edgeEnds c r Dir.outflow).1,
                (edgeEnds c r Dir.outflow).2, edgeAttr RelKind.pdg r)] := by
          rw [BasicCacheGraph.rel_setRel, if_pos rfl]
          show (((g.add_node (r.other Dir.outflow) "traversal").rel RelKind.pdg).edges ++ _) = _
          rw [BasicCacheGraph.edges_add_node]
        rw [h2, List.append_assoc]
        rfl
      · intro e hee
        rcases List.mem_cons.mp hee with heq | htl
        · subst heq
          refine ⟨rfl, ?_⟩
          show r.end_node.index ∈ (r :: rs).map fun r => r.end_node.index
          simp
        · refine ⟨(hall e htl).1, ?_⟩
          simp only [List.map_cons, List.mem_cons]
          exact Or.inr (hall e htl).2

theorem edgeAttr_pdg (r : GRel) : edgeAttr RelKind.pdg r = r.var := rfl

theorem addFlowLoop_cons_of_hasEdge_false (R : RelKind) (d : Dir) (c : Nat) (r0 : GRel)
    (rs : List GRel) (g : BasicCacheGraph)
    (h : (((g.add_node (r0.other d) "traversal").rel R).hasEdge (edgeEnds c r0 d).1
      (edgeEnds c r0 d).2) = false) :
    addFlowLoop R d c (r0 :: rs) g
      = addFlowLoop R d c rs ((g.add_node (r0.other d) "traversal").setRel R
          (((g.add_node (r0.other d) "traversal").rel R).addEdge (edgeEnds c r0 d).1
            (edgeEnds c r0 d).2 (edgeAttr R r0))) := by
  simp only [addFlowLoop]
  rw [if_neg (by simp [h])]

theorem addFlowLoop_pdg_out_inserts (c : Nat) : ∀ (rels : List GRel) (g : BasicCacheGraph),
    (rels.map (fun r => r.end_node.index)).Nodup →
    (∀ r ∈ rels, ((g.rel RelKind.pdg).hasEdge c r.end_node.index) = false) →
    ∀ r ∈ rels,
      ((addFlowLoop RelKind.pdg Dir.outflow c rels g).rel RelKind.pdg).edgeVar c
          r.end_node.index = r.var
      ∧ (c, r.end_node.index, r.var)
          ∈ ((addFlowLoop RelKind.pdg Dir.outflow c rels g).rel RelKind.pdg).edges
      ∧ (alookup (addFlowLoop RelKind.pdg Dir.outflow c rels g).node_cache_pool
          r.end_node.index).isSome = true := by
  intro rels
  induction rels with
  | nil => intro g _ _ r hr; simp at hr
  | cons r0 rs ih =>
    intro g hnd hne r hr
    have hne0 : (((g.add_node (r0.other Dir.outflow) "traversal").rel RelKind.pdg).hasEdge
        (edgeEnds c r0 Dir.outflow).1 (edgeEnds c r0 Dir.outflow).2) = false := by
      show (((g.add_node (r0.other Dir.outflow) "traversal").rel RelKind.pdg).hasEdge c
        r0.end_node.index) = false
      have h0 := hne r0 (List.mem_cons_self _ _)
      unfold RelGraph.hasEdge at h0 ⊢
      rw [BasicCacheGraph.edges_add_node]
      exact h0
    rw [addFlowLoop_cons_of_hasEdge_false RelKind.pdg Dir.outflow c r0 rs g hne0]
    have hBedges : ((((g.add_node (r0.other Dir.outflow) "traversal").setRel RelKind.pdg
        (((g.add_node (r0.other Dir.outflow) "traversal").rel RelKind.pdg).addEdge
          (edgeEnds c r0 Dir.outflow).1 (edgeEnds c r0 Dir.outflow).2
          (edgeAttr RelKind.pdg r0))).rel RelKind.pdg).edges)
        = (g.rel RelKind.pdg).edges ++ [(c, r0.end_node.index, r0.var)] := by
      rw [BasicCacheGraph.rel_setRel, if_pos rfl]
      show ((g.add_node (r0.other Dir.outflow) "traversal").rel RelKind.pdg).edges ++ _ = _
      rw [BasicCacheGraph.edges_add_node]
      rfl
    simp only [List.map_cons] at hnd
    have hnotin : r0.end_node.index ∉ rs.map (fun r => r.end_node.index) :=
      (List.nodup_cons.mp hnd).1
    have hnd' : (rs.map (fun r => r.end_node.index)).Nodup := (List.nodup_cons.mp hnd).2
    have hneB : ∀ r' ∈ rs, (((((g.add_node (r0.other Dir.outflow) "traversal").setRel RelKind.pdg
        (((g.add_node (r0.other Dir.outflow) "traversal").rel RelKind.pdg).addEdge
          (edgeEnds c r0 Dir.outflow).1 (edgeEnds c r0 Dir.outflow).2
          (edgeAttr RelKind.pdg r0))).rel RelKind.pdg).hasEdge c r'.end_node.index)) = false := by
      intro r' hr'
      have hxe : r0.end_node.index ≠ r'.end_node.index := by
        intro he
        apply hnotin
        rw [he]
        exact List.mem_map_of_mem _ hr'
      have h1 := hne r' (List.mem_cons_of_mem _ hr')
      unfold RelGraph.hasEdge at h1 ⊢
      rw [hBedges, List.any_append, h1]
      simp [hxe]
    rcases List.mem_cons.mp hr with heq | htl
    · subst heq
      refine ⟨?_, ?_, ?_⟩
      · obtain ⟨extra, hsh, hall⟩ := addFlowLoop_pdg_out_shape c rs _
        rw [RelGraph.edgeVar_eq_of_extra _ _ extra c r.end_node.index hsh ?hno]
        case hno =>
          intro e he hc2
          apply hnotin
          rw [← hc2.2]
          exact (hall e he).2
        unfold RelGraph.edgeVar
        rw [hBedges, List.find?_append,
          RelGraph.find?_none_of_hasEdge_false _ _ _ (hne r (List.mem_cons_self _ _))]
        simp [List.find?]
      · apply BasicCacheGraph.mem_edges_addFlowLoop
        rw [hBedges]
        simp
      · apply BasicCacheGraph.pool_addFlowLoop_isSome_mono
        show (alookup ((g.add_node (r.other Dir.outflow) "traversal")).node_cache_pool
          r.end_node.index).isSome = true
        exact BasicCacheGraph.pool_add_node_self g r.end_node "traversal"
    · exact ih _ hnd' hneB r htl

theorem pdgOutLoop_mem (pg : RelGraph) (src : Nat) : ∀ (ids : List Nat)
    (pool : List (Nat × GNode)) (i : Nat) (p : GNode),
    i ∈ ids → alookup pool i = some p →
    ({ p with taint_var := pg.edgeVar src i }) ∈ (pdgOutLoop pg src ids pool).2 := by
  intro ids
  induction ids with
  | nil => intro pool i p h _; simp at h
  | cons j tl ih =>
    intro pool i p hmem hp
    simp only [pdgOutLoop]
    cases hj : alookup pool j with
    | some q =>
      simp only [hj]
      by_cases hij : i = j
      · subst hij
        rw [hp] at hj
        obtain rfl : p = q := by injection hj
        exact List.mem_cons_self _ _
      · rcases List.mem_cons.mp hmem with heq | htl
        · exact absurd heq hij
        · have hp' : alookup (aset pool j { q with taint_var := pg.edgeVar src j }) i = some p := by
            rw [alookup_aset_ne _ _ _ _ hij]
            exact hp
          exact List.mem_cons_of_mem _ (ih _ i p htl hp')
    | none =>
      simp only [hj]
      rcases List.mem_cons.mp hmem with heq | htl
      · subst heq
        rw [hp] at hj
        cases hj
      · exact ih pool i p htl hp

theorem BasicCacheGraph.addFlow_of_not_fetched (g : BasicCacheGraph) (R : RelKind) (d : Dir)
    (n : GNode) (rels : List GRel) (h : g.fetched R d n.index = false) :
    g.addFlow R d n rels
      = addFlowLoop R d n.index rels ((g.add_node n "traversal").setRel R
          (((g.add_node n "traversal").rel R).setVis n.index
            (((g.add_node n "traversal").rel R).visOf n.index ||| dirBit d))) := by
  have hc : (((g.add_node n "traversal").rel R).visOf n.index &&& dirBit d != 0)
      = g.fetched R d n.index := by
    unfold BasicCacheGraph.fetched
    rw [BasicCacheGraph.rel_add_node, RelGraph.visOf_addNode]
  simp only [BasicCacheGraph.addFlow]
  rw [if_neg (by rw [hc, h]; simp)]

theorem BasicCacheGraph.get_pdg_outflow_of_cached (G : BasicCacheGraph) (n : GNode)
    (hb : G.fetched RelKind.pdg Dir.outflow n.index = true)
    (hn : (G.rel RelKind.pdg).hasNode n.index = true)
    (hp : (alookup G.node_cache_pool n.index).isSome = true) :
    (G.get_pdg_outflow n).2
      = some (pdgOutLoop (G.rel RelKind.pdg) n.index
          ((G.rel RelKind.pdg).successors n.index) G.node_cache_pool).2 := by
  have hgr : (G.add_node n "traversal").pdg_cache_graph = G.rel RelKind.pdg := by
    show ((G.add_node n "traversal").rel RelKind.pdg) = _
    rw [BasicCacheGraph.rel_add_node, RelGraph.addNode_of_hasNode _ _ hn]
  have hgp : (G.add_node n "traversal").node_cache_pool = G.node_cache_pool :=
    BasicCacheGraph.pool_add_node_of_isSome G n "traversal" hp
  simp only [BasicCacheGraph.get_pdg_outflow]
  rw [hgr, hgp, if_pos (by exact hb)]

/-- C8 counterexample.  After `add_pdg_inflow(node 2, [rel 1→2 var "x"])`
the data-flow edge 1→2 carries variable name `"x"`, yet
`get_pdg_inflow(node 2)` returns node 1 with no `taint_var` attached:
the inbound accessor does not preserve the edge's variable name. -/
theorem C8_counterexample :
    exPdgInCache.pdg_cache_graph.edgeVar 1 2 = some "x" ∧
    (exPdgInCache.get_pdg_inflow exN2).2 = some [some exN1] ∧
    exN1.taint_var = none ∧
    ¬ exN1.taint_var = some "x" := by
  refine ⟨by decide, by decide, by decide, by decide⟩

/-- C8 (amended).  Only `get_pdg_outflow` attaches the data-flow edge's
variable name onto the returned node's transient `taint_var`: after
`add_pdg_outflow` caches fresh relationships (distinct endpoints, no
preexisting duplicate edges), each returned successor is the pooled node
with `taint_var` overwritten by the relationship's `var`; by contrast
`get_pdg_inflow` returns the pooled predecessor nodes verbatim, with no
variable name attached. -/
theorem C8_pdg_taint_amended :
    (∀ (g : BasicCacheGraph) (n : GNode) (rels : List GRel),
      g.fetched RelKind.pdg Dir.outflow n.index = false →
      (rels.map (fun r => r.end_node.index)).Nodup →
      (∀ r ∈ rels, (g.pdg_cache_graph.hasEdge n.index r.end_node.index) = false) →
      ∀ r ∈ rels, ∃ p,
        alookup (g.add_pdg_outflow n rels).node_cache_pool r.end_node.index = some p ∧
        ({ p with taint_var := r.var })
          ∈ ((g.add_pdg_outflow n rels).get_pdg_outflow n).2.getD [])
  ∧ (∀ (g : BasicCacheGraph) (n : GNode) (l : List (Option GNode)) (x : GNode),
      (g.get_pdg_inflow n).2 = some l → some x ∈ l →
      ∃ i, i ∈ (g.add_node n "traversal").pdg_cache_graph.predecessors n.index ∧
        alookup (g.add_node n "traversal").node_cache_pool i = some x) := by
  constructor
  · intro g n rels hbit hnd hne r hr
    have hG : g.add_pdg_outflow n rels
        = addFlowLoop RelKind.pdg Dir.outflow n.index rels ((g.add_node n "traversal").setRel
            RelKind.pdg (((g.add_node n "traversal").rel RelKind.pdg).setVis n.index
              (((g.add_node n "traversal").rel RelKind.pdg).visOf n.index
                ||| dirBit Dir.outflow))) :=
      BasicCacheGraph.addFlow_of_not_fetched g RelKind.pdg Dir.outflow n rels hbit
    have hneB : ∀ r' ∈ rels, ((((g.add_node n "traversal").setRel RelKind.pdg
        (((g.add_node n "traversal").rel RelKind.pdg).setVis n.index
          (((g.add_node n "traversal").rel RelKind.pdg).visOf n.index
            ||| dirBit Dir.outflow))).rel RelKind.pdg).hasEdge n.index r'.end_node.index)
        = false := by
      intro r' hr'
      have h1 := hne r' hr'
      unfold RelGraph.hasEdge at h1 ⊢
      rw [BasicCacheGraph.rel_setRel, if_pos rfl, RelGraph.edges_setVis,
        BasicCacheGraph.edges_add_node]
      exact h1
    have hfacts := addFlowLoop_pdg_out_inserts n.index rels _ hnd hneB r hr
    have hfetch : (g.add_pdg_outflow n rels).fetched RelKind.pdg Dir.outflow n.index = true :=
      BasicCacheGraph.fetched_addFlow_self g RelKind.pdg Dir.outflow n rels
    have hreg : (∀ R', ((g.add_pdg_outflow n rels).rel R').hasNode n.index = true) ∧
        (alookup (g.add_pdg_outflow n rels).node_cache_pool n.index).isSome = true :=
      BasicCacheGraph.registered_addFlow g RelKind.pdg Dir.outflow n rels
    rw [← hG] at hfacts
    obtain ⟨p, hp⟩ := Option.isSome_iff_exists.mp hfacts.2.2
    refine ⟨p, hp, ?_⟩
    rw [BasicCacheGraph.get_pdg_outflow_of_cached _ n hfetch (hreg.1 RelKind.pdg) hreg.2]
    rw [Option.getD_some]
    have hsucc : r.end_node.index
        ∈ ((g.add_pdg_outflow n rels).rel RelKind.pdg).successors n.index := by
      rw [RelGraph.mem_successors]
      exact ⟨r.var, hfacts.2.1⟩
    have hmem := pdgOutLoop_mem ((g.add_pdg_outflow n rels).rel RelKind.pdg) n.index
      (((g.add_pdg_outflow n rels).rel RelKind.pdg).successors n.index)
      (g.add_pdg_outflow n rels).node_cache_pool r.end_node.index p hsucc hp
    rw [hfacts.1] at hmem
    exact hmem
  · intro g n l x hl hx
    have hfst : ((g.getFlow RelKind.pdg Dir.inflow n).2) = some l := hl
    simp only [BasicCacheGraph.getFlow] at hfst
    by_cases hc : (((g.add_node n "traversal").rel RelKind.pdg).visOf n.index
        &&& dirBit Dir.inflow != 0) = true
    · rw [if_pos hc] at hfst
      have hmap := Option.some.inj hfst
      rw [← hmap] at hx
      rw [List.mem_map] at hx
      obtain ⟨i, hi, hlook⟩ := hx
      exact ⟨i, hi, hlook⟩
    · rw [if_neg hc] at hfst
      cases hfst

/-- Witness for the amended C8 at a concrete input: caching the outbound
data-flow edge 1→2 with variable `"x"` makes `get_pdg_outflow(node 1)`
return node 2 with `taint_var = "x"`. -/
theorem C8_pdg_taint_amended_witness :
    ∃ p, alookup (BasicCacheGraph.empty.add_pdg_outflow exN1
        [⟨exN1, exN2, some "x"⟩]).node_cache_pool 2 = some p ∧
      ({ p with taint_var := some "x" })
        ∈ ((BasicCacheGraph.empty.add_pdg_outflow exN1
            [⟨exN1, exN2, some "x"⟩]).get_pdg_outflow exN1).2.getD [] :=
  C8_pdg_taint_amended.1 BasicCacheGraph.empty exN1 [⟨exN1, exN2, some "x"⟩]
    (by decide) (by decide) (by decide) ⟨exN1, exN2, some "x"⟩ (by decide)

/-!
Sanitizer and terminal bit masks (claims C3, C4).
-/

theorem lor_two_pow_of_lt (A k : Nat) (h : A < 2 ^ k) : A ||| 2 ^ k = A + 2 ^ k := by
  apply Nat.eq_of_testBit_eq
  intro i
  rw [Nat.testBit_lor]
  rcases Nat.lt_trichotomy i k with hik | hik | hik
  · rw [Nat.add_comm, Nat.testBit_two_pow_add_gt hik, Nat.testBit_two_pow]
    have : ¬ (k = i) := by omega
    simp [this]
  · subst hik
    rw [Nat.add_comm, Nat.testBit_two_pow_add_eq, Nat.testBit_lt_two_pow h,
      Nat.testBit_two_pow]
    simp
  · have h1 : A.testBit i = false := Nat.testBit_lt_two_pow (by
      calc A < 2 ^ k := h
        _ ≤ 2 ^ i := Nat.pow_le_pow_right (by omega) (by omega))
    have h2 : (A + 2 ^ k).testBit i = false := Nat.testBit_lt_two_pow (by
      have hk : 2 ^ k + 2 ^ k ≤ 2 ^ i := by
        have : 2 ^ (k + 1) ≤ 2 ^ i := Nat.pow_le_pow_right (by omega) (by omega)
        rw [Nat.pow_succ] at this
        omega
      omega)
    rw [h1, h2, Nat.testBit_two_pow]
    have : ¬ (k = i) := by omega
    simp [this]

theorem enumFrom_or_fold {α : Type} (h : α → Bool) : ∀ (l : List α) (k A : Nat), A < 2 ^ k →
    (List.enumFrom k l).foldl (fun acc p => acc ||| (if h p.2 then 1 <<< p.1 else 0)) A
      = A + natOfBits (l.map h) * 2 ^ k := by
  intro l
  induction l with
  | nil => intro k A _; simp [natOfBits, List.enumFrom]
  | cons x xs ih =>
    intro k A hA
    show (List.enumFrom (k + 1) xs).foldl _ (A ||| (if h x then 1 <<< k else 0)) = _
    cases hx : h x with
    | false =>
      rw [if_neg (by simp [hx]), Nat.or_zero, ih (k + 1) A (by rw [Nat.pow_succ]; omega)]
      have e : natOfBits (List.map h (x :: xs)) = 2 * natOfBits (List.map h xs) := by
        simp [natOfBits, hx]
      rw [e, Nat.pow_succ]
      ring
    | true =>
      rw [if_pos (by simp [hx]), Nat.one_shiftLeft, lor_two_pow_of_lt A k hA,
        ih (k + 1) (A + 2 ^ k) (by rw [Nat.pow_succ]; omega)]
      have e : natOfBits (List.map h (x :: xs)) = 1 + 2 * natOfBits (List.map h xs) := by
        simp [natOfBits, hx]
      rw [e, Nat.pow_succ]
      ring

theorem natOfBits_eq_all (bs : List Bool) :
    (natOfBits bs = 2 ^ bs.length - 1) ↔ bs.all id = true := by
  induction bs with
  | nil => simp [natOfBits]
  | cons b t ih =>
    have hp : (2 : Nat) ^ (t.length + 1) = 2 ^ t.length * 2 := Nat.pow_succ 2 t.length
    have h1 : (1 : Nat) ≤ 2 ^ t.length := Nat.one_le_two_pow
    cases b with
    | false =>
      have e : natOfBits (false :: t) = 2 * natOfBits t := by simp [natOfBits]
      rw [e]
      simp only [List.length_cons, List.all_cons, id_eq, Bool.false_and]
      constructor
      · intro h
        exfalso
        omega
      · intro h
        exact absurd h (by simp)
    | true =>
      have e : natOfBits (true :: t) = 1 + 2 * natOfBits t := by simp [natOfBits]
      rw [e]
      simp only [List.length_cons, List.all_cons, id_eq, Bool.true_and]
      constructor
      · intro h
        exact ih.mp (by omega)
      · intro h
        have := ih.mpr h
        omega

theorem natOfBits_pos_iff (bs : List Bool) : (0 < natOfBits bs) ↔ bs.any id = true := by
  induction bs with
  | nil => simp [natOfBits]
  | cons b t ih =>
    cases b with
    | false =>
      have e : natOfBits (false :: t) = 2 * natOfBits t := by simp [natOfBits]
      rw [e]
      simp only [List.any_cons, id_eq, Bool.false_or]
      constructor
      · intro h
        exact ih.mp (by omega)
      · intro h
        have := ih.mpr h
        omega
    | true =>
      have e : natOfBits (true :: t) = 1 + 2 * natOfBits t := by simp [natOfBits]
      rw [e]
      simp only [List.any_cons, id_eq, Bool.true_or]
      constructor
      · intro _
        trivial
      · intro _
        omega

theorem all_map_id {α : Type} (l : List α) (f : α → Bool) : (l.map f).all id = l.all f := by
  induction l with
  | nil => rfl
  | cons x t ih => simp [List.all_cons, ih]

theorem any_map_id {α : Type} (l : List α) (f : α → Bool) : (l.map f).any id = l.any f := by
  induction l with
  | nil => rfl
  | cons x t ih => simp [List.any_cons, ih]

theorem sanitize_flag_eq (san : List (TNode → Bool)) (c : TNode) :
    sanitize_flag san c = natOfBits (san.map (fun r => !(r c))) := by
  unfold sanitize_flag
  rw [List.enum_eq_enumFrom]
  have hfun : (fun (acc : Nat) (p : Nat × (TNode → Bool)) =>
      acc ||| (if p.2 c then 0 else 1 <<< p.1))
      = (fun acc p => acc ||| (if (!(p.2 c)) then 1 <<< p.1 else 0)) := by
    funext acc p
    cases hp : p.2 c <;> simp [hp]
  rw [hfun, enumFrom_or_fold (fun r => !(r c)) san 0 0 (by decide)]
  simp

theorem terminal_flag_eq (term : List (TNode → Bool)) (c : TNode) :
    terminal_flag term c = natOfBits (term.map (fun r => r c)) := by
  unfold terminal_flag
  rw [List.enum_eq_enumFrom,
    enumFrom_or_fold (fun r => r c) term 0 0 (by decide)]
  simp

theorem sanitize_flag_allones_iff (san : List (TNode → Bool)) (c : TNode) :
    (sanitize_flag san c = (1 <<< san.length) - 1) ↔ (san.all (fun r => !(r c)) = true) := by
  rw [sanitize_flag_eq, Nat.one_shiftLeft]
  have hlen : san.length = (san.map (fun r => !(r c))).length := (List.length_map _ _).symm
  rw [hlen, natOfBits_eq_all, all_map_id]

theorem terminal_flag_pos_iff (term : List (TNode → Bool)) (c : TNode) :
    (0 < terminal_flag term c) ↔ (term.any (fun r => r c) = true) := by
  rw [terminal_flag_eq, natOfBits_pos_iff, any_map_id]

theorem processCandidates_fst (san term : List (TNode → Bool)) : ∀ cands : List TNode,
    (processCandidates san term cands).1 = cands.filter (fun c => san.all (fun r => !(r c))) := by
  intro cands
  induction cands with
  | nil => rfl
  | cons c cs ih =>
    simp only [processCandidates, List.filter_cons]
    by_cases hall : san.all (fun r => !(r c)) = true
    · rw [if_pos ((sanitize_flag_allones_iff san c).mpr hall), if_pos hall]
      by_cases hterm : terminal_flag term c > 0
      · rw [if_pos hterm]
        simpa using ih
      · rw [if_neg hterm]
        simpa using ih
    · rw [if_neg (fun h => hall ((sanitize_flag_allones_iff san c).mp h)),
        if_neg (by simp [hall])]
      exact ih

theorem processCandidates_snd (san term : List (TNode → Bool)) : ∀ cands : List TNode,
    (processCandidates san term cands).2
      = (cands.filter (fun c => san.all (fun r => !(r c)))).filter
          (fun c => term.any (fun r => r c)) := by
  intro cands
  induction cands with
  | nil => rfl
  | cons c cs ih =>
    simp only [processCandidates, List.filter_cons]
    by_cases hall : san.all (fun r => !(r c)) = true
    · rw [if_pos ((sanitize_flag_allones_iff san c).mpr hall), if_pos hall,
        List.filter_cons]
      by_cases hterm : term.any (fun r => r c) = true
      · rw [if_pos ((terminal_flag_pos_iff term c).mpr hterm), if_pos hterm]
        simpa using ih
      · rw [if_neg (fun h => hterm ((terminal_flag_pos_iff term c).mp h)),
          if_neg (by simp [hterm])]
        simpa using ih
    · rw [if_neg (fun h => hall ((sanitize_flag_allones_iff san c).mp h)),
        if_neg (by simp [hall])]
      exact ih

/-- C4.  A candidate is accepted into the next frontier exactly when
every configured sanitizer rule answers `false` on it (so with two rules
a candidate passing only one is excluded), and with an empty sanitizer
list every candidate is accepted. -/
theorem C4_sanitizer_and_semantics :
    (∀ (san term : List (TNode → Bool)) (cands : List TNode),
      (processCandidates san term cands).1
        = cands.filter (fun c => san.all (fun r => !(r c))))
  ∧ (∀ (term : List (TNode → Bool)) (cands : List TNode),
      (processCandidates [] term cands).1 = cands) := by
  constructor
  · exact fun san term cands => processCandidates_fst san term cands
  · intro term cands
    rw [processCandidates_fst]
    simp

/-- C3 counterexample.  In the diamond scenario (seed 10, edges 10→11,
10→12, 11→13, 12→13, terminal rule `index = 13`) node 13 satisfies the
terminal rule yet appears twice in the result returned by
`get_result()`, refuting "appears exactly once in the result set". -/
theorem C3_counterexample :
    exCfgD.terminal.any (fun r => r exT') = true ∧
    get_result (run exCfgD 10 exTravD).1 = [exT', exT'] ∧
    (get_result (run exCfgD 10 exTravD).1).count exT' = 2 := by
  refine ⟨by decide, by decide, by decide⟩

/-- C3 (amended).  A candidate that passes every sanitizer rule and
satisfies at least one terminal rule is appended to the result once per
candidate occurrence — so one append even when several terminal rules
fire together, but a node reached as a candidate several times appears
several times, as the counterexample forces — and every result append is
also appended to the next frontier (terminal marking does not stop
expansion). -/
theorem C3_terminal_semantics_amended :
    ∀ (san term : List (TNode → Bool)) (cands : List TNode),
      (processCandidates san term cands).2
        = (cands.filter (fun c => san.all (fun r => !(r c)))).filter
            (fun c => term.any (fun r => r c))
    ∧ (processCandidates san term cands).2
        = (processCandidates san term cands).1.filter (fun c => term.any (fun r => r c)) := by
  intro san term cands
  constructor
  · exact processCandidates_snd san term cands
  · rw [processCandidates_snd, processCandidates_fst]

/-!
Revisit suppression (claim C5).
-/

theorem inPool_aset_aset (pool : List (Option Nat × List (Nat × Nat))) (ok' : Option Nat)
    (inner : List (Nat × Nat)) (id' v : Nat) (hl : alookup pool ok' = some inner)
    (ok : Option Nat) (id : Nat) (h : inPool pool ok id) :
    inPool (aset pool ok' (aset inner id' v)) ok id := by
  unfold inPool at h ⊢
  obtain ⟨inner0, h1, h2⟩ := h
  by_cases hok : ok = ok'
  · subst hok
    rw [h1] at hl
    have hio : inner0 = inner := by injection hl
    rw [hio] at h2
    refine ⟨aset inner id' v, alookup_aset_self _ _ _, ?_⟩
    by_cases hid : id = id'
    · subst hid
      rw [alookup_aset_self]
      rfl
    · rw [alookup_aset_ne _ _ _ _ hid]
      exact h2
  · exact ⟨inner0, by rw [alookup_aset_ne _ _ _ _ hok]; exact h1, h2⟩

theorem poolBump_fst_mono (pool : List (Option Nat × List (Nat × Nat))) (ok' : Option Nat)
    (id' : Nat) (ok : Option Nat) (id : Nat) (h : inPool pool ok id) :
    inPool (poolBump pool ok' id').1 ok id := by
  unfold poolBump
  cases hl : alookup pool ok' with
  | some inner =>
    dsimp only
    cases hi : alookup inner id' with
    | some cnt =>
      dsimp only
      exact inPool_aset_aset pool ok' inner id' (cnt + 1) hl ok id h
    | none =>
      dsimp only
      exact inPool_aset_aset pool ok' inner id' 1 hl ok id h
  | none =>
    dsimp only
    unfold inPool at h ⊢
    obtain ⟨inner0, h1, h2⟩ := h
    have hok : ok ≠ ok' := by
      intro he
      rw [he, hl] at h1
      cases h1
    exact ⟨inner0, by rw [alookup_aset_ne _ _ _ _ hok]; exact h1, h2⟩

theorem poolBump_fst_self (pool : List (Option Nat × List (Nat × Nat))) (ok : Option Nat)
    (id : Nat) : inPool (poolBump pool ok id).1 ok id := by
  unfold poolBump
  cases hl : alookup pool ok with
  | some inner =>
    dsimp only
    cases hi : alookup inner id with
    | some cnt =>
      dsimp only
      unfold inPool
      exact ⟨aset inner id (cnt + 1), alookup_aset_self _ _ _, by rw [alookup_aset_self]; rfl⟩
    | none =>
      dsimp only
      unfold inPool
      exact ⟨aset inner id 1, alookup_aset_self _ _ _, by rw [alookup_aset_self]; rfl⟩
  | none =>
    dsimp only
    unfold inPool
    exact ⟨[(id, 1)], alookup_aset_self _ _ _, by simp [alookup]⟩

theorem poolBump_snd_true_iff (pool : List (Option Nat × List (Nat × Nat))) (ok : Option Nat)
    (id : Nat) : (poolBump pool ok id).2 = true ↔ inPool pool ok id := by
  unfold poolBump
  unfold inPool
  cases hl : alookup pool ok with
  | some inner =>
    dsimp only
    cases hi : alookup inner id with
    | some cnt =>
      dsimp only
      constructor
      · intro _
        exact ⟨inner, rfl, by rw [hi]; rfl⟩
      · intro _
        rfl
    | none =>
      dsimp only
      constructor
      · intro h
        cases h
      · rintro ⟨inner2, hl2, hs⟩
        obtain rfl : inner = inner2 := by injection hl2
        rw [hi] at hs
        cases hs
  | none =>
    dsimp only
    constructor
    · intro h
      cases h
    · rintro ⟨inner2, hl2, _⟩
      cases hl2

theorem runLoop_log_not_mem {σ : Type} (cfg : TravCfg σ) : ∀ (fuel : Nat) (q : List TNode)
    (s : Trav σ) (ok : Option Nat) (id : Nat),
    inPool s.visit_node_pool ok id → (ok, id) ∉ (runLoop cfg fuel q s).2 := by
  intro fuel
  induction fuel with
  | zero => intro q s ok id h; simp [runLoop]
  | succ fuel ih =>
    intro q s ok id h
    cases q with
    | nil => simp [runLoop]
    | cons current rest =>
      simp only [runLoop]
      split
      · exact ih rest _ ok id (poolBump_fst_mono _ _ _ ok id h)
      · dsimp only
        intro hmem
        rcases List.mem_cons.mp hmem with heq | htl
        · rename_i hskip
          apply hskip
          rw [poolBump_snd_true_iff]
          have h1 : ok = current.origin := congrArg Prod.fst heq
          have h2 : id = current.identity := congrArg Prod.snd heq
          rw [← h1, ← h2]
          exact h
        · exact absurd htl (ih _ _ ok id (poolBump_fst_mono _ _ _ ok id h))

theorem runLoop_log_nodup {σ : Type} (cfg : TravCfg σ) : ∀ (fuel : Nat) (q : List TNode)
    (s : Trav σ), ((runLoop cfg fuel q s).2).Nodup := by
  intro fuel
  induction fuel with
  | zero => intro q s; simp [runLoop]
  | succ fuel ih =>
    intro q s
    cases q with
    | nil => simp [runLoop]
    | cons current rest =>
      simp only [runLoop]
      split
      · exact ih rest _
      · dsimp only
        refine List.Nodup.cons ?_ (ih _ _)
        exact runLoop_log_not_mem cfg fuel _ _ current.origin current.identity
          (poolBump_fst_self _ _ _)

/-- C5.  Within one `run()`: the expansion log never repeats an
(origin id, node identity) pair — the step function is applied to each
pair at most once; a node popped again under the same origin only has
its visit counter incremented and is skipped; and the visit counter pool
is reset at the start of `run`, whose outcome is independent of the pool
left by earlier runs. -/
theorem C5_revisit_suppression :
    (∀ (σ : Type) (cfg : TravCfg σ) (fuel : Nat) (s : Trav σ),
      ((run cfg fuel s).2.2).Nodup)
  ∧ (∀ (σ : Type) (cfg : TravCfg σ) (fuel : Nat) (current : TNode) (rest : List TNode)
      (s : Trav σ) (inner : List (Nat × Nat)) (cnt : Nat),
      alookup s.visit_node_pool current.origin = some inner →
      alookup inner current.identity = some cnt →
      runLoop cfg (fuel + 1) (current :: rest) s
        = runLoop cfg fuel rest
            { s with
              visit_node_pool := aset s.visit_node_pool current.origin
                (aset inner current.identity (cnt + 1)) })
  ∧ (∀ (σ : Type) (cfg : TravCfg σ) (fuel : Nat) (s : Trav σ)
      (pool : List (Option Nat × List (Nat × Nat))),
      run cfg fuel { s with visit_node_pool := pool } = run cfg fuel s) := by
  refine ⟨?_, ?_, ?_⟩
  · intro σ cfg fuel s
    simp only [run]
    cases hinit : init_traversal { s with visit_node_pool := [] } with
    | error e => simp
    | ok s1 => exact runLoop_log_nodup cfg fuel _ _
  · intro σ cfg fuel current rest s inner cnt h1 h2
    simp only [runLoop, poolBump, h1, h2]
    simp
  · intro σ cfg fuel s pool
    rfl

/-- Witness for C5 at a concrete input: popping node 13 again under
origin 10 with an existing count of 1 bumps the counter to 2 and skips
the node. -/
theorem C5_revisit_suppression_witness :
    runLoop exCfgD 4 [exT'] ⟨[OriginEntry.litNode exS], [], [(some 10, [(13, 1)])], [], (),
        RecState.empty⟩
      = runLoop exCfgD 3 [] ⟨[OriginEntry.litNode exS], [], [(some 10, [(13, 2)])], [], (),
          RecState.empty⟩ := by
  have h := C5_revisit_suppression.2.1 Unit exCfgD 3 exT' []
    ⟨[OriginEntry.litNode exS], [], [(some 10, [(13, 1)])], [], (), RecState.empty⟩
    [(13, 1)] 1 (by decide) (by decide)
  exact h

/-- C9.  Seeding with no literal origins and no origin resolvers makes
`run` fail with the `IndexError` raised by `init_traversal` before any
queue processing: no node is expanded (empty expansion log), nothing is
recorded, and the result list is left untouched (empty for a fresh
instance). -/
theorem C9_empty_seed_error :
    ∀ (σ : Type) (cfg : TravCfg σ) (fuel : Nat) (s : Trav σ),
      s.origin = [] → s._origin = [] →
      run cfg fuel s
        = ({ s with visit_node_pool := [] }, some "self.origin should not be empty", []) := by
  intro σ cfg fuel s h1 h2
  have hinit : init_traversal { s with visit_node_pool := [] }
      = Except.error "self.origin should not be empty" := by
    unfold init_traversal
    rw [if_neg (by simp [h1]), if_pos (by simp [h2])]
  simp only [run, hinit]

/-- Witness for C9: a fresh traversal with empty `_origin` raises and
leaves the state untouched apart from the pool reset. -/
theorem C9_empty_seed_error_witness :
    run exCfgD 5 exTravEmpty
      = ({ exTravEmpty with visit_node_pool := [] },
         some "self.origin should not be empty", []) :=
  C9_empty_seed_error Unit exCfgD 5 exTravEmpty (by decide) (by decide)

/-- C6.  Calling `init_traversal` twice produces the same `origin` list
as calling it once: rerunning it after a first call is a no-op (and a
failing first call fails identically), for literal origins and for
resolver functions alike. -/
theorem C6_init_traversal_idempotent :
    ∀ (σ : Type) (s : Trav σ), (init_traversal s).bind init_traversal = init_traversal s := by
  intro σ s
  by_cases h1 : (s.origin.length != 0) = true
  · have e1 : init_traversal s = Except.ok s := by
      unfold init_traversal
      rw [if_pos h1]
    rw [e1]
    show init_traversal s = Except.ok s
    exact e1
  · have h1' : s.origin = [] := by
      rw [← List.length_eq_zero]
      simpa using h1
    by_cases h2 : s._origin.length = 0
    · have e1 : init_traversal s = Except.error "self.origin should not be empty" := by
        unfold init_traversal
        rw [if_neg h1, if_pos h2]
      rw [e1]
      rfl
    · cases horig : s._origin with
      | nil => exact absurd (by rw [horig]; rfl) h2
      | cons e es =>
        cases e with
        | litNode n =>
          have hh : s._origin.head? = some (OriginEntry.litNode n) := by rw [horig]; rfl
          have e1 : init_traversal s
              = Except.ok { s with origin := s._origin.filterMap originEntryNode } := by
            unfold init_traversal
            rw [if_neg h1, if_neg h2, hh]
          have hlen : (s._origin.filterMap originEntryNode).length ≠ 0 := by
            rw [horig, List.filterMap_cons]
            simp [originEntryNode]
          rw [e1]
          show init_traversal { s with origin := s._origin.filterMap originEntryNode }
              = Except.ok { s with origin := s._origin.filterMap originEntryNode }
          unfold init_traversal
          rw [if_pos (by simpa using hlen)]
        | resolver ns =>
          have hh : s._origin.head? = some (OriginEntry.resolver ns) := by rw [horig]; rfl
          have e1 : init_traversal s = Except.ok { s with origin :=
              (s.origin ++ s._origin.foldl (fun acc e => acc ++ originEntryNodes e) []) } := by
            unfold init_traversal
            rw [if_neg h1, if_neg h2, hh]
          rw [e1]
          show init_traversal { s with origin :=
              (s.origin ++ s._origin.foldl (fun acc e => acc ++ originEntryNodes e) []) } = _
          by_cases hF : (((s.origin ++ s._origin.foldl
              (fun acc e => acc ++ originEntryNodes e) []).length != 0)) = true
          · unfold init_traversal
            rw [if_pos (by simpa using hF)]
          · have hFnil : s.origin ++ s._origin.foldl
                (fun acc e => acc ++ originEntryNodes e) [] = [] := by
              rw [← List.length_eq_zero]
              simpa using hF
            have hFnil2 : s._origin.foldl (fun acc e => acc ++ originEntryNodes e) [] = [] :=
              (List.append_eq_nil.mp hFnil).2
            unfold init_traversal
            rw [if_neg (by simpa using hF), if_neg h2, hh]
            rw [hFnil]
            dsimp only
            simp [hFnil2]

/-!
Result accumulation across runs (claim C10).
-/

theorem runLoop_result_frame {σ : Type} (cfg : TravCfg σ) : ∀ (fuel : Nat) (q : List TNode)
    (s t : Trav σ) (r : List TNode),
    s._origin = t._origin → s.origin = t.origin →
    s.visit_node_pool = t.visit_node_pool → s.stepState = t.stepState →
    s.recState = t.recState → s.result = r ++ t.result →
    runLoop cfg fuel q s
      = ({ (runLoop cfg fuel q t).1 with result := r ++ (runLoop cfg fuel q t).1.result },
         (runLoop cfg fuel q t).2) := by
  intro fuel
  induction fuel with
  | zero =>
    intro q s t r h1 h2 h3 h4 h5 h6
    have hst : s = { t with result := r ++ t.result } := by
      cases s
      cases t
      dsimp at h1 h2 h3 h4 h5 h6 ⊢
      subst h1; subst h2; subst h3; subst h4; subst h5; subst h6
      rfl
    simp only [runLoop]
    rw [hst]
  | succ fuel ih =>
    intro q s t r h1 h2 h3 h4 h5 h6
    cases q with
    | nil =>
      have hst : s = { t with result := r ++ t.result } := by
        cases s
        cases t
        dsimp at h1 h2 h3 h4 h5 h6 ⊢
        subst h1; subst h2; subst h3; subst h4; subst h5; subst h6
        rfl
      simp only [runLoop]
      rw [hst]
    | cons current rest =>
      simp only [runLoop]
      rw [h3]
      by_cases hb : (poolBump t.visit_node_pool current.origin current.identity).2 = true
      · rw [if_pos hb, if_pos hb]
        exact ih rest
          { s with visit_node_pool :=
              (poolBump t.visit_node_pool current.origin current.identity).1 }
          { t with visit_node_pool :=
              (poolBump t.visit_node_pool current.origin current.identity).1 }
          r h1 h2 rfl h4 h5 h6
      · rw [if_neg hb, if_neg hb]
        rw [h1, h2, h4, h5, h6, List.append_assoc r t.result]
        exact congrArg (fun p : Trav σ × List (Option Nat × Nat) =>
            (p.1, (current.origin, current.identity) :: p.2))
          (ih (rest ++ (recordLoop cfg t.recState current (processCandidates cfg.sanitizer
                cfg.terminal ((cfg.step t.stepState current).2.map
                  (fun n => { n with origin := current.origin }))).1).2)
            ⟨t._origin, t.origin,
              (poolBump t.visit_node_pool current.origin current.identity).1,
              r ++ (t.result ++ (processCandidates cfg.sanitizer cfg.terminal
                ((cfg.step t.stepState current).2.map
                  (fun n => { n with origin := current.origin }))).2),
              (cfg.step t.stepState current).1,
              (recordLoop cfg t.recState current (processCandidates cfg.sanitizer
                cfg.terminal ((cfg.step t.stepState current).2.map
                  (fun n => { n with origin := current.origin }))).1).1⟩
            ⟨t._origin, t.origin,
              (poolBump t.visit_node_pool current.origin current.identity).1,
              t.result ++ (processCandidates cfg.sanitizer cfg.terminal
                ((cfg.step t.stepState current).2.map
                  (fun n => { n with origin := current.origin }))).2,
              (cfg.step t.stepState current).1,
              (recordLoop cfg t.recState current (processCandidates cfg.sanitizer
                cfg.terminal ((cfg.step t.stepState current).2.map
                  (fun n => { n with origin := current.origin }))).1).1⟩
            r rfl rfl rfl rfl rfl rfl)

theorem init_traversal_components {σ : Type} (s t : Trav σ)
    (h1 : s._origin = t._origin) (h2 : s.origin = t.origin) :
    (init_traversal s = Except.error "self.origin should not be empty"
      ∧ init_traversal t = Except.error "self.origin should not be empty")
    ∨ (∃ X, init_traversal s = Except.ok { s with origin := X }
        ∧ init_traversal t = Except.ok { t with origin := X }) := by
  by_cases hl : (s.origin.length != 0) = true
  · right
    refine ⟨s.origin, ?_, ?_⟩
    · unfold init_traversal
      rw [if_pos hl]
    · unfold init_traversal
      rw [if_pos (by rw [← h2]; exact hl), h2]
  · by_cases hz : s._origin.length = 0
    · left
      constructor
      · unfold init_traversal
        rw [if_neg hl, if_pos hz]
      · unfold init_traversal
        rw [if_neg (by rw [← h2]; exact hl), if_pos (by rw [← h1]; exact hz)]
    · right
      cases horig : s._origin with
      | nil => exact absurd (by rw [horig]; rfl) hz
      | cons e es =>
        have hh : s._origin.head? = some e := by rw [horig]; rfl
        have hh' : t._origin.head? = some e := by rw [← h1, horig]; rfl
        cases e with
        | litNode n =>
          refine ⟨s._origin.filterMap originEntryNode, ?_, ?_⟩
          · unfold init_traversal
            rw [if_neg hl, if_neg hz, hh, horig]
          · rw [h1]
            unfold init_traversal
            rw [if_neg (by rw [← h2]; exact hl), if_neg (by rw [← h1]; exact hz), hh']
        | resolver ns =>
          refine ⟨(s.origin ++ s._origin.foldl (fun acc e => acc ++ originEntryNodes e) []),
            ?_, ?_⟩
          · unfold init_traversal
            rw [if_neg hl, if_neg hz, hh, horig]
          · rw [h1, h2]
            unfold init_traversal
            rw [if_neg (by rw [← h2]; exact hl), if_neg (by rw [← h1]; exact hz), hh']

theorem run_result_frame {σ : Type} (cfg : TravCfg σ) (fuel : Nat) (s t : Trav σ)
    (r : List TNode) (h1 : s._origin = t._origin) (h2 : s.origin = t.origin)
    (h4 : s.stepState = t.stepState) (h5 : s.recState = t.recState)
    (h6 : s.result = r ++ t.result) :
    run cfg fuel s
      = ({ (run cfg fuel t).1 with result := r ++ (run cfg fuel t).1.result },
         (run cfg fuel t).2.1, (run cfg fuel t).2.2) := by
  rcases init_traversal_components { s with visit_node_pool := [] }
      { t with visit_node_pool := [] } (by exact h1) (by exact h2) with ⟨e1, e2⟩ | ⟨X, e1, e2⟩
  · simp only [run, e1, e2]
    have hst : ({ s with visit_node_pool := [] } : Trav σ)
        = { t with visit_node_pool := [], result := r ++ t.result } := by
      cases s
      cases t
      dsimp at h1 h2 h4 h5 h6 ⊢
      subst h1; subst h2; subst h4; subst h5; subst h6
      rfl
    rw [hst]
  · simp only [run, e1, e2]
    rw [h5]
    have key := runLoop_result_frame cfg fuel
      (seedLoop cfg X [] t.recState).1
      ⟨s._origin, X, (seedLoop cfg X [] t.recState).2.1, s.result, s.stepState,
        (seedLoop cfg X [] t.recState).2.2⟩
      ⟨t._origin, X, (seedLoop cfg X [] t.recState).2.1, t.result, t.stepState,
        (seedLoop cfg X [] t.recState).2.2⟩
      r h1 rfl rfl h4 rfl h6
    rw [key]

/-- C10.  `run()` never clears the accumulated result list: a run
appends its terminal hits onto whatever the instance already holds, so
`get_result` after a second run returns the first run's results followed
by the second run's own hits, rather than only the latest run's. -/
theorem C10_result_accumulates :
    ∀ (σ : Type) (cfg : TravCfg σ) (fuel1 fuel2 : Nat) (s : Trav σ),
      get_result (run cfg fuel1 s).1
        = s.result ++ get_result (run cfg fuel1 { s with result := [] }).1
    ∧ get_result (run cfg fuel2 (run cfg fuel1 s).1).1
        = get_result (run cfg fuel1 s).1
          ++ get_result (run cfg fuel2 { (run cfg fuel1 s).1 with result := [] }).1 := by
  have main : ∀ (σ : Type) (cfg : TravCfg σ) (fuel : Nat) (u : Trav σ),
      get_result (run cfg fuel u).1
        = u.result ++ get_result (run cfg fuel { u with result := [] }).1 := by
    intro σ cfg fuel u
    have h := run_result_frame cfg fuel u { u with result := [] } u.result rfl rfl rfl rfl
      (by simp)
    unfold get_result
    rw [h]
  intro σ cfg fuel1 fuel2 s
  exact ⟨main σ cfg fuel1 s, main σ cfg fuel2 (run cfg fuel1 s).1⟩

/-!
Interprocedural depth bounding (claim C7).
-/

theorem fdFold_some_mono (cf : Nat) : ∀ (rns : List TNode) (fd : List (Nat × Nat)) (f v : Nat),
    alookup fd f = some v →
    alookup (rns.foldl (fun fd rn => if (alookup fd rn.funcid).isNone then
      fd ++ [(rn.funcid, (alookup fd cf).getD 0 + 1)] else fd) fd) f = some v := by
  intro rns
  induction rns with
  | nil => intro fd f v h; exact h
  | cons rn tl ih =>
    intro fd f v h
    rw [List.foldl_cons]
    by_cases hn : (alookup fd rn.funcid).isNone = true
    · rw [if_pos hn]
      exact ih _ f v (alookup_append_some _ _ _ _ h)
    · rw [if_neg hn]
      exact ih fd f v h

theorem fdFold_new (cf : Nat) : ∀ (rns : List TNode) (fd : List (Nat × Nat)) (f d0 : Nat),
    alookup fd cf = some d0 → alookup fd f = none →
    (alookup (rns.foldl (fun fd rn => if (alookup fd rn.funcid).isNone then
        fd ++ [(rn.funcid, (alookup fd cf).getD 0 + 1)] else fd) fd) f = none
    ∨ alookup (rns.foldl (fun fd rn => if (alookup fd rn.funcid).isNone then
        fd ++ [(rn.funcid, (alookup fd cf).getD 0 + 1)] else fd) fd) f = some (d0 + 1)) := by
  intro rns
  induction rns with
  | nil => intro fd f d0 _ hnone; exact Or.inl hnone
  | cons rn tl ih =>
    intro fd f d0 hcf hnone
    rw [List.foldl_cons]
    by_cases hn : (alookup fd rn.funcid).isNone = true
    · rw [if_pos hn]
      by_cases hf : f = rn.funcid
      · have hv : alookup (fd ++ [(rn.funcid, (alookup fd cf).getD 0 + 1)]) f
            = some ((alookup fd cf).getD 0 + 1) := by
          have hnone' : alookup fd f = none := by rw [hf]; exact Option.isNone_iff_eq_none.mp hn
          rw [alookup_append_none _ _ _ hnone']
          simp [alookup, hf]
        have hpers := fdFold_some_mono cf tl _ f _ hv
        right
        have hg : (alookup fd cf).getD 0 = d0 := by rw [hcf]; rfl
        rw [← hg]
        exact hpers
      · have hF : alookup (fd ++ [(rn.funcid, (alookup fd cf).getD 0 + 1)]) f = none := by
          cases hx : alookup fd f with
          | some w => rw [hx] at hnone; cases hnone
          | none =>
            rw [alookup_append_none _ _ _ hx]
            have : ¬ (rn.funcid == f) = true := by simp; exact fun he => hf he.symm
            simp [alookup, this]
        have hcf' : alookup (fd ++ [(rn.funcid, (alookup fd cf).getD 0 + 1)]) cf = some d0 :=
          alookup_append_some _ _ _ _ hcf
        exact ih _ f d0 hcf' hF
    · rw [if_neg hn]
      exact ih fd f d0 hcf hnone

theorem gpdgCallLoop_some_mono (fw : Framework) (cf : Nat) : ∀ (calls : List TNode)
    (fd : List (Nat × Nat)) (res : List TNode) (f v : Nat),
    alookup fd f = some v → alookup (gpdgCallLoop fw cf calls (fd, res)).1 f = some v := by
  intro calls
  induction calls with
  | nil => intro fd res f v h; exact h
  | cons call tl ih =>
    intro fd res f v h
    simp only [gpdgCallLoop]
    cases hd : fw.find_cg_decl_nodes call with
    | nil => exact ih fd res f v h
    | cons callable rest =>
      dsimp only
      exact ih _ _ f v (fdFold_some_mono cf _ fd f v h)

theorem gpdgCallLoop_new (fw : Framework) (cf : Nat) : ∀ (calls : List TNode)
    (fd : List (Nat × Nat)) (res : List TNode) (f d0 : Nat),
    alookup fd cf = some d0 → alookup fd f = none →
    (alookup (gpdgCallLoop fw cf calls (fd, res)).1 f = none
    ∨ alookup (gpdgCallLoop fw cf calls (fd, res)).1 f = some (d0 + 1)) := by
  intro calls
  induction calls with
  | nil => intro fd res f d0 _ hnone; exact Or.inl hnone
  | cons call tl ih =>
    intro fd res f d0 hcf hnone
    simp only [gpdgCallLoop]
    cases hd : fw.find_cg_decl_nodes call with
    | nil => exact ih fd res f d0 hcf hnone
    | cons callable rest =>
      dsimp only
      rcases fdFold_new cf (fw.find_function_return_expr callable) fd f d0 hcf hnone with
        hno | hyes
      · exact ih _ _ f d0 (fdFold_some_mono cf _ fd cf d0 hcf) hno
      · exact Or.inr (gpdgCallLoop_some_mono fw cf tl _ _ f (d0 + 1) hyes)

/-- C7.  The interprocedural backward data-flow step answers the empty
list whenever the current node's function id has a recorded depth of at
least the configured maximum (so with maximum 1 a declaration reached at
depth 1 is popped once but contributes no further expansion); a recorded
depth is never changed afterwards; a callee function id discovered
through a resolved call is assigned depth caller's-depth + 1 only on its
first discovery; and the default maximum is 3. -/
theorem C7_depth_bounding :
    (∀ (fw : Framework) (max_func_depth : Nat) (fd : List (Nat × Nat)) (node : TNode)
      (d : Nat), alookup fd node.funcid = some d → max_func_depth ≤ d →
      gpdg_traversal fw max_func_depth fd node = (fd, []))
  ∧ (∀ (fw : Framework) (max_func_depth : Nat) (fd : List (Nat × Nat)) (node : TNode)
      (f v : Nat), alookup fd f = some v →
      alookup (gpdg_traversal fw max_func_depth fd node).1 f = some v)
  ∧ (∀ (fw : Framework) (max_func_depth : Nat) (fd : List (Nat × Nat)) (node : TNode)
      (f : Nat), alookup fd f = none → f ≠ node.funcid →
      (alookup (gpdg_traversal fw max_func_depth fd node).1 f = none
      ∨ alookup (gpdg_traversal fw max_func_depth fd node).1 f
          = some ((alookup fd node.funcid).getD 0 + 1)))
  ∧ default_max_func_depth = 3 := by
  refine ⟨?_, ?_, ?_, rfl⟩
  · intro fw max_func_depth fd node d hd hge
    simp only [gpdg_traversal, hd, Option.isNone_some, Bool.false_eq_true, if_false]
    rw [if_pos (by simpa using hge)]
  · intro fw max_func_depth fd node f v hv
    simp only [gpdg_traversal]
    by_cases hn : (alookup fd node.funcid).isNone = true
    · rw [if_pos hn]
      have hv0 : alookup (fd ++ [(node.funcid, 0)]) f = some v :=
        alookup_append_some _ _ _ _ hv
      split
      · exact hv0
      · split
        · exact hv0
        · exact gpdgCallLoop_some_mono fw node.funcid _ _ _ f v hv0
    · rw [if_neg hn]
      split
      · exact hv
      · split
        · exact hv
        · exact gpdgCallLoop_some_mono fw node.funcid _ _ _ f v hv
  · intro fw max_func_depth fd node f hnone hne
    simp only [gpdg_traversal]
    by_cases hn : (alookup fd node.funcid).isNone = true
    · rw [if_pos hn]
      have heq : alookup fd node.funcid = none := Option.isNone_iff_eq_none.mp hn
      have hd0 : (alookup fd node.funcid).getD 0 = 0 := by rw [heq]; rfl
      have hcf : alookup (fd ++ [(node.funcid, 0)]) node.funcid = some 0 := by
        rw [alookup_append_none _ _ _ heq]
        simp [alookup]
      have hf0 : alookup (fd ++ [(node.funcid, 0)]) f = none := by
        rw [alookup_append_none _ _ _ hnone]
        have : ¬ (node.funcid == f) = true := by simp; exact fun he => hne he.symm
        simp [alookup, this]
      split
      · exact Or.inl hf0
      · split
        · exact Or.inl hf0
        · rcases gpdgCallLoop_new fw node.funcid _ _ _ f 0 hcf hf0 with h | h
          · exact Or.inl h
          · right
            rw [hd0]
            exact h
    · rw [if_neg hn]
      obtain ⟨d, hd⟩ : ∃ d, alookup fd node.funcid = some d := by
        cases hx : alookup fd node.funcid with
        | none => rw [hx] at hn; simp at hn
        | some d => exact ⟨d, rfl⟩
      split
      · exact Or.inl hnone
      · split
        · exact Or.inl hnone
        · rcases gpdgCallLoop_new fw node.funcid _ _ _ f d hd hnone with h | h
          · exact Or.inl h
          · right
            rw [hd]
            simpa using h

/-- Witness for C7 at a concrete input: with maximum depth 1, a node in
a function already recorded at depth 1 expands to nothing. -/
theorem C7_depth_bounding_witness :
    gpdg_traversal exFw 1 [(5, 1)] ⟨1, 1, 5, "AST_CALL", none⟩ = ([(5, 1)], []) :=
  C7_depth_bounding.1 exFw 1 [(5, 1)] ⟨1, 1, 5, "AST_CALL", none⟩ 1 (by decide) (by decide)

end PJScan
